import Mathlib

/-!
Verification of the flag/bitmask parameter-encoding subsystem of the
`cse` library (`src/cse/flags.py`).

The subsystem packs a named set of boolean flags into one arbitrary-width
integer (`BaseFlags.value`).  Each concrete enumeration class (`Language`,
`CountryCode`) declares one `_flag_property` per flag; the property's
function body `return 1 << k` fixes the flag's bit mask and its docstring
holds the wire token sent to the remote API.  `BaseFlags.__init_subclass__`
collects the names of all `_flag_property` members via
`inspect.getmembers(cls)` — which enumerates members sorted by name — into
`cls.flag_values`.  `to_google_flags` serializes the current value as either
no parameter, a `|`-joined positive token list, or a `-( … )`-wrapped
negated token list.

The embedding below represents a concrete enumeration class by its list of
flag descriptors in declaration order (name, bit position, docstring), and
translates each method of `BaseFlags` into a function over that data plus
the integer `value`, modelled as `Nat` (Python integers are unbounded, and
every value involved is non-negative).
-/

/-- Python string comparison on lists of characters: lexicographic by code
point.  Mirrors CPython `str.__lt__`-style comparison as used by
`list.sort`, in its non-strict form. -/
def pyCharListLe : List Char → List Char → Bool
  | [], _ => true
  | _ :: _, [] => false
  | a :: as, b :: bs => if a = b then pyCharListLe as bs else decide (a.toNat < b.toNat)

/-- Python `<=` on strings (code-point lexicographic). -/
def pyStrLe (s t : String) : Bool := pyCharListLe s.data t.data

/-- Relation form of `pyStrLe`, as a decidable relation, for use with `List.insertionSort`. -/
def pyLeP (s t : String) : Prop := pyStrLe s t = true

instance : DecidableRel pyLeP := fun s t => inferInstanceAs (Decidable (pyStrLe s t = true))

/-- One flag descriptor of a concrete enumeration class: the Python
property name, the bit position `k` from the property body `return 1 << k`,
and the property docstring, which is the wire token. -/
structure FlagDescriptor where
  name : String
  bit : Nat
  doc : String
deriving DecidableEq

/-- A concrete enumeration class: its `_flag_property` members in
declaration order. -/
structure FlagClass where
  decls : List FlagDescriptor
deriving DecidableEq

namespace FlagClass

/-- Model of `cls.flag_values`, filled by `BaseFlags.__init_subclass__`: the names of
all `_flag_property` members, in the order produced by
`inspect.getmembers(cls)`, i.e. sorted by name.  Modelled with a structural
insertion sort; the descriptor names are pairwise distinct, so any sort by
`pyLeP` produces the same list as CPython `sorted`. -/
def flag_values (c : FlagClass) : List String :=
  List.insertionSort pyLeP (c.decls.map (fun d => d.name))

/-- Model of `len(cls.flag_values)`. -/
def nflags (c : FlagClass) : Nat := (flag_values c).length

/-- Resolve an attribute name to its flag descriptor (the `_flag_property`
bound at that name), if any. -/
def findDescr (c : FlagClass) (n : String) : Option FlagDescriptor :=
  c.decls.find? (fun d => d.name == n)

/-- A descriptor's flag mask: the property body `return 1 << k`. -/
def flagMask (d : FlagDescriptor) : Nat := 1 <<< d.bit

/-- Model of `BaseFlags._has_flag`: `(self.value & flag) == flag`. -/
def _has_flag (v flag : Nat) : Bool := (v &&& flag) == flag

/-- Model of `BaseFlags._set_flag`: `value |= flag` when toggling on, `value &= ~flag`
when toggling off.  On non-negative Python integers `value & ~flag` clears
exactly the bits of `flag`, i.e. equals `value ^ (value & flag)`, which is
the form used here since `Nat` has no two's-complement negation. -/
def _set_flag (v flag : Nat) (toggle : Bool) : Nat :=
  if toggle then v ||| flag else v ^^^ (v &&& flag)

/-- Model of `getattr(instance, n)` for a flag property `n`: `_has_flag` on the
property's mask.  `Option.none` models the `AttributeError` raised when `n`
is not a registered flag. -/
def getFlag (c : FlagClass) (v : Nat) (n : String) : Option Bool :=
  (findDescr c n).map (fun d => _has_flag v (flagMask d))

/-- Observable outcome of `setattr(instance, n, b)` under
`BaseFlags.__setattr__`: a registered flag name routes through
`_flag_property.__set__` to `_set_flag`; the reserved name `"value"` stores
the raw Python bool (`True == 1`, `False == 0`); every other name raises
`AttributeError` — either directly from `__setattr__`'s `hasattr` guard or,
for names of non-flag class members, from `object.__setattr__` on a
`__slots__` class.  `Except.error n` models the raised `AttributeError`. -/
def pySetattr (c : FlagClass) (v : Nat) (n : String) (b : Bool) : Except String Nat :=
  match findDescr c n with
  | some d => .ok (_set_flag v (flagMask d) b)
  | none => if n == "value" then .ok (if b then 1 else 0) else .error n

/-- Model of `hasattr(self, n)` restricted to the outcomes `from_flags` can see that
do not themselves raise on the subsequent `setattr`: registered flag
properties and the `value` slot.  (For names of other class members Python's
`hasattr` succeeds but the subsequent `setattr` raises `AttributeError`
anyway, so the observable outcome matches `pySetattr`.) -/
def pyHasattr (c : FlagClass) (n : String) : Bool :=
  (findDescr c n).isSome || n == "value"

/-- Model of `BaseFlags.from_flags(**flags)`: start from value `0`, check
`hasattr(self, name)` for each keyword (raising `AttributeError(name)`
otherwise) and apply `setattr`.  Keyword arguments are modelled as an
association list in call order. -/
def from_flags (c : FlagClass) (kwargs : List (String × Bool)) : Except String Nat :=
  kwargs.foldlM
    (fun v p => if pyHasattr c p.1 then pySetattr c v p.1 p.2 else .error p.1) 0

/-- Model of `BaseFlags.all`: `int('1' * len(cls.flag_values), 2)`, i.e. `2^N - 1`.
(For `N = 0` Python would raise `ValueError` on `int('', 2)`; both concrete
enumeration classes have `N ≥ 1`, and theorems that touch `all` carry that
hypothesis.) -/
def all (c : FlagClass) : Nat := 2 ^ c.nflags - 1

/-- Model of `BaseFlags.none`: value `0`. -/
def none (_c : FlagClass) : Nat := 0

/-- Model of `BaseFlags._all_flags_enabled`: `self.value == (1 << len(self.flag_values)) - 1`. -/
def _all_flags_enabled (c : FlagClass) (v : Nat) : Bool :=
  v == (1 <<< c.nflags) - 1

/-- Model of `BaseFlags.__iter__` over the concrete classes' `__dict__` property:
one `(name, getattr(self, name))` pair per name in `flag_values`, in
`flag_values` order. -/
def iterate (c : FlagClass) (v : Nat) : List (String × Bool) :=
  (flag_values c).map (fun n => (n, (getFlag c v n).getD false))

/-- The number of `'1'` characters in `bin(v)`: the population count of a
non-negative Python integer.  Structured as fuel recursion (fuel `v` always
suffices) so that the definition reduces in the kernel. -/
def countOnesFuel : Nat → Nat → Nat
  | 0, _ => 0
  | fuel + 1, v => if v = 0 then 0 else v % 2 + countOnesFuel fuel (v / 2)

/-- Model of `bin(v).count('1')`. -/
def countOnes (v : Nat) : Nat := countOnesFuel v v

/-- Python `sep.join(parts)`. -/
def pyJoin (sep : String) : List String → String
  | [] => ""
  | [s] => s
  | s :: t :: rest => s ++ sep ++ pyJoin sep (t :: rest)

/-- The wire token of the flag property bound at name `n`:
`getattr(cls, n).__doc__`. -/
def docOf (c : FlagClass) (n : String) : String :=
  ((findDescr c n).map (fun d => d.doc)).getD ""

/-- The generator `(… for k, v in self if not v)` mapped through
`getattr(self.__class__, k).__doc__`: wire tokens of the unset flags, in
iteration order. -/
def unsetDocs (c : FlagClass) (v : Nat) : List String :=
  ((iterate c v).filter (fun p => !p.2)).map (fun p => docOf c p.1)

/-- The generator `(… for k, v in self if v)`: wire tokens of the set
flags, in iteration order. -/
def setDocs (c : FlagClass) (v : Nat) : List String :=
  ((iterate c v).filter (fun p => p.2)).map (fun p => docOf c p.1)

/-- The negated-list encoding `'-(' + '|'.join(unset tokens) + ')'`. -/
def negatedList (c : FlagClass) (v : Nat) : String :=
  "-(" ++ pyJoin "|" (unsetDocs c v) ++ ")"

/-- The positive-list encoding `'|'.join(set tokens)`. -/
def positiveList (c : FlagClass) (v : Nat) : String :=
  pyJoin "|" (setDocs c v)

/-- Model of `BaseFlags.to_google_flags`:
omit the parameter when the value is `0` or fully set; otherwise produce the
negated list when `bin(value).count('1') > len(flag_values) / 2` (Python
true division over exact values), else the positive list.  The guard is
written in the equivalent integer form `2 * count > N`; the equivalence
`(k : ℚ) > N / 2 ↔ 2 * k > N` is the lemma `gt_half_iff` below, and the
branch-selection theorem for claim C1 states the guard in the source's
rational form. -/
def to_google_flags (c : FlagClass) (v : Nat) : Option String :=
  if v == 0 || _all_flags_enabled c v then Option.none
  else if 2 * countOnes v > c.nflags then some (negatedList c v)
  else some (positiveList c v)

/-- Number of set flags of an instance, as observed through iteration:
the count of `(name, True)` pairs. -/
def setCount (c : FlagClass) (v : Nat) : Nat :=
  (iterate c v).countP (fun p => p.2)

/-- Well-formedness of a concrete enumeration class, as established by the
two class declarations in `src/cse/flags.py`: distinct property names,
distinct docstrings, bit positions `0, 1, 2, …` in declaration order,
docstrings that are non-empty, do not begin with `'-'` and contain no `'|'`,
and no flag named `"value"`. -/
def WF (c : FlagClass) : Prop :=
  (c.decls.map (fun d => d.name)).Nodup ∧
  (c.decls.map (fun d => d.doc)).Nodup ∧
  (c.decls.map (fun d => d.bit)) = List.range c.decls.length ∧
  (∀ d ∈ c.decls, d.doc ≠ "" ∧ d.doc.data.head? ≠ some '-' ∧ '|' ∉ d.doc.data) ∧
  "value" ∉ c.decls.map (fun d => d.name) ∧
  c.decls ≠ []

instance (c : FlagClass) : Decidable (WF c) := by
  unfold WF; infer_instance

end FlagClass

instance {ε α : Type} [DecidableEq ε] [DecidableEq α] : DecidableEq (Except ε α) :=
  fun a b =>
    match a, b with
    | .ok x, .ok y => decidable_of_iff (x = y) (by simp)
    | .error e, .error f => decidable_of_iff (e = f) (by simp)
    | .ok _, .error _ => isFalse (fun h => Except.noConfusion h)
    | .error _, .ok _ => isFalse (fun h => Except.noConfusion h)

/-- Python's `count > N / 2` under true division coincides with the integer
guard `2 * count > N` used in the embedding of `to_google_flags`. -/
theorem gt_half_iff (k n : Nat) : ((k : ℚ) > (n : ℚ) / 2) ↔ 2 * k > n := by
  rw [gt_iff_lt, div_lt_iff₀ (by norm_num : (0 : ℚ) < 2), gt_iff_lt]
  rw [show ((k : ℚ) * 2) = ((2 * k : Nat) : ℚ) by push_cast; ring]
  exact Nat.cast_lt

open FlagClass

namespace cse

/-- The `Language` class of `src/cse/flags.py`: its 35 `_flag_property`
declarations in source order, each with its `1 << k` bit position and its
docstring wire token. -/
def Language : FlagClass := ⟨[
  ⟨"arabic", 0, "lang_ar"⟩,
  ⟨"bulgarian", 1, "lang_bg"⟩,
  ⟨"catalan", 2, "lang_ca"⟩,
  ⟨"czech", 3, "lang_cs"⟩,
  ⟨"danish", 4, "lang_da"⟩,
  ⟨"german", 5, "lang_de"⟩,
  ⟨"greek", 6, "lang_el"⟩,
  ⟨"english", 7, "lang_en"⟩,
  ⟨"spanish", 8, "lang_es"⟩,
  ⟨"estonian", 9, "lang_et"⟩,
  ⟨"finnish", 10, "lang_fi"⟩,
  ⟨"french", 11, "lang_fr"⟩,
  ⟨"croatian", 12, "lang_hr"⟩,
  ⟨"hungarian", 13, "lang_hu"⟩,
  ⟨"indonesian", 14, "lang_id"⟩,
  ⟨"icelandic", 15, "lang_is"⟩,
  ⟨"italian", 16, "lang_it"⟩,
  ⟨"hebrew", 17, "lang_iw"⟩,
  ⟨"japanese", 18, "lang_ja"⟩,
  ⟨"korean", 19, "lang_ko"⟩,
  ⟨"lithuanian", 20, "lang_lt"⟩,
  ⟨"latvian", 21, "lang_lv"⟩,
  ⟨"dutch", 22, "lang_nl"⟩,
  ⟨"norwegian", 23, "lang_no"⟩,
  ⟨"polish", 24, "lang_pl"⟩,
  ⟨"portuguese", 25, "lang_pt"⟩,
  ⟨"romanian", 26, "lang_ro"⟩,
  ⟨"russian", 27, "lang_ru"⟩,
  ⟨"slovak", 28, "lang_sk"⟩,
  ⟨"slovenian", 29, "lang_sl"⟩,
  ⟨"serbian", 30, "lang_sr"⟩,
  ⟨"swedish", 31, "lang_sv"⟩,
  ⟨"turkish", 32, "lang_tr"⟩,
  ⟨"chinese_simplified", 33, "lang_zh-CN"⟩,
  ⟨"chinese_traditional", 34, "lang_zh-TW"⟩]⟩

end cse

namespace cse

/-! The `CountryCode` class of `src/cse/flags.py`: its 242 `_flag_property`
declarations in source order, each with its `1 << k` bit position and its
docstring wire token.  Note the two underscore-prefixed property names
(`_british_virgin_islands`, `_us_virgin_islands`), which
`inspect.getmembers` sorts before every letter-initial name.  The
descriptor table is split into chunks only because very deep list literals
elaborate slowly; `CountryCode` is their concatenation in source order. -/

/-- Declarations of `CountryCode`, part 0. -/
def ccDecls0 : List FlagDescriptor := [
  ⟨"afghanistan", 0, "countryAF"⟩,
  ⟨"albania", 1, "countryAL"⟩,
  ⟨"algeria", 2, "countryDZ"⟩,
  ⟨"american_samoa", 3, "countryAS"⟩,
  ⟨"andorra", 4, "countryAD"⟩,
  ⟨"angola", 5, "countryAO"⟩,
  ⟨"anguilla", 6, "countryAI"⟩,
  ⟨"antarctica", 7, "countryAQ"⟩,
  ⟨"antigua_and_barbuda", 8, "countryAG"⟩,
  ⟨"argentina", 9, "countryAR"⟩,
  ⟨"armenia", 10, "countryAM"⟩,
  ⟨"aruba", 11, "countryAW"⟩,
  ⟨"australia", 12, "countryAU"⟩,
  ⟨"austria", 13, "countryAT"⟩,
  ⟨"azerbaijan", 14, "countryAZ"⟩,
  ⟨"bahamas", 15, "countryBS"⟩,
  ⟨"bahrain", 16, "countryBH"⟩,
  ⟨"bangladesh", 17, "countryBD"⟩,
  ⟨"barbados", 18, "countryBB"⟩,
  ⟨"belarus", 19, "countryBY"⟩,
  ⟨"belgium", 20, "countryBE"⟩,
  ⟨"belize", 21, "countryBZ"⟩,
  ⟨"benin", 22, "countryBJ"⟩,
  ⟨"bermuda", 23, "countryBM"⟩,
  ⟨"bhutan", 24, "countryBT"⟩,
  ⟨"bolivia", 25, "countryBO"⟩,
  ⟨"bosnia_and_herzegovina", 26, "countryBA"⟩,
  ⟨"botswana", 27, "countryBW"⟩,
  ⟨"bouvet_island", 28, "countryBV"⟩,
  ⟨"brazil", 29, "countryBR"⟩,
  ⟨"british_indian_ocean_territory", 30, "countryIO"⟩,
  ⟨"brunei_darussalam", 31, "countryBN"⟩,
  ⟨"bulgaria", 32, "countryBG"⟩,
  ⟨"burkina_faso", 33, "countryBF"⟩,
  ⟨"burundi", 34, "countryBI"⟩,
  ⟨"cambodia", 35, "countryKH"⟩,
  ⟨"cameroon", 36, "countryCM"⟩,
  ⟨"canada", 37, "countryCA"⟩,
  ⟨"cape_verde", 38, "countryCV"⟩,
  ⟨"cayman_islands", 39, "countryKY"⟩]

/-- Declarations of `CountryCode`, part 1. -/
def ccDecls1 : List FlagDescriptor := [
  ⟨"central_african_republic", 40, "countryCF"⟩,
  ⟨"chad", 41, "countryTD"⟩,
  ⟨"chile", 42, "countryCL"⟩,
  ⟨"china", 43, "countryCN"⟩,
  ⟨"christmas_island", 44, "countryCX"⟩,
  ⟨"cocos_keeling_islands", 45, "countryCC"⟩,
  ⟨"colombia", 46, "countryCO"⟩,
  ⟨"comoros", 47, "countryKM"⟩,
  ⟨"congo", 48, "countryCG"⟩,
  ⟨"_the_democratic_republic_of_the_congo", 49, "countryCD"⟩,
  ⟨"cook_islands", 50, "countryCK"⟩,
  ⟨"costa_rica", 51, "countryCR"⟩,
  ⟨"cote_divoire", 52, "countryCI"⟩,
  ⟨"croatia_hrvatska", 53, "countryHR"⟩,
  ⟨"cuba", 54, "countryCU"⟩,
  ⟨"cyprus", 55, "countryCY"⟩,
  ⟨"czech_republic", 56, "countryCZ"⟩,
  ⟨"denmark", 57, "countryDK"⟩,
  ⟨"djibouti", 58, "countryDJ"⟩,
  ⟨"dominica", 59, "countryDM"⟩,
  ⟨"dominican_republic", 60, "countryDO"⟩,
  ⟨"east_timor", 61, "countryTP"⟩,
  ⟨"ecuador", 62, "countryEC"⟩,
  ⟨"egypt", 63, "countryEG"⟩,
  ⟨"el_salvador", 64, "countrySV"⟩,
  ⟨"equatorial_guinea", 65, "countryGQ"⟩,
  ⟨"eritrea", 66, "countryER"⟩,
  ⟨"estonia", 67, "countryEE"⟩,
  ⟨"ethiopia", 68, "countryET"⟩,
  ⟨"european_union", 69, "countryEU"⟩,
  ⟨"falkland_islands_malvinas", 70, "countryFK"⟩,
  ⟨"faroe_islands", 71, "countryFO"⟩,
  ⟨"fiji", 72, "countryFJ"⟩,
  ⟨"finland", 73, "countryFI"⟩,
  ⟨"france", 74, "countryFR"⟩,
  ⟨"_metropolitan_france", 75, "countryFX"⟩,
  ⟨"french_guiana", 76, "countryGF"⟩,
  ⟨"french_polynesia", 77, "countryPF"⟩,
  ⟨"french_southern_territories", 78, "countryTF"⟩,
  ⟨"gabon", 79, "countryGA"⟩]

/-- Declarations of `CountryCode`, part 2. -/
def ccDecls2 : List FlagDescriptor := [
  ⟨"gambia", 80, "countryGM"⟩,
  ⟨"georgia", 81, "countryGE"⟩,
  ⟨"germany", 82, "countryDE"⟩,
  ⟨"ghana", 83, "countryGH"⟩,
  ⟨"gibraltar", 84, "countryGI"⟩,
  ⟨"greece", 85, "countryGR"⟩,
  ⟨"greenland", 86, "countryGL"⟩,
  ⟨"grenada", 87, "countryGD"⟩,
  ⟨"guadeloupe", 88, "countryGP"⟩,
  ⟨"guam", 89, "countryGU"⟩,
  ⟨"guatemala", 90, "countryGT"⟩,
  ⟨"guinea", 91, "countryGN"⟩,
  ⟨"guinea_bissau", 92, "countryGW"⟩,
  ⟨"guyana", 93, "countryGY"⟩,
  ⟨"haiti", 94, "countryHT"⟩,
  ⟨"heard_island_and_mcdonald_islands", 95, "countryHM"⟩,
  ⟨"holy_see_vatican_city_state", 96, "countryVA"⟩,
  ⟨"honduras", 97, "countryHN"⟩,
  ⟨"hong_kong", 98, "countryHK"⟩,
  ⟨"hungary", 99, "countryHU"⟩,
  ⟨"iceland", 100, "countryIS"⟩,
  ⟨"india", 101, "countryIN"⟩,
  ⟨"indonesia", 102, "countryID"⟩,
  ⟨"_islamic_republic_of_iran", 103, "countryIR"⟩,
  ⟨"iraq", 104, "countryIQ"⟩,
  ⟨"ireland", 105, "countryIE"⟩,
  ⟨"israel", 106, "countryIL"⟩,
  ⟨"italy", 107, "countryIT"⟩,
  ⟨"jamaica", 108, "countryJM"⟩,
  ⟨"japan", 109, "countryJP"⟩,
  ⟨"jordan", 110, "countryJO"⟩,
  ⟨"kazakhstan", 111, "countryKZ"⟩,
  ⟨"kenya", 112, "countryKE"⟩,
  ⟨"kiribati", 113, "countryKI"⟩,
  ⟨"_democratic_peoples_republic_of_korea", 114, "countryKP"⟩,
  ⟨"_republic_of_korea", 115, "countryKR"⟩,
  ⟨"kuwait", 116, "countryKW"⟩,
  ⟨"kyrgyzstan", 117, "countryKG"⟩,
  ⟨"lao_peoples_democratic_republic", 118, "countryLA"⟩,
  ⟨"latvia", 119, "countryLV"⟩]

/-- Declarations of `CountryCode`, part 3. -/
def ccDecls3 : List FlagDescriptor := [
  ⟨"lebanon", 120, "countryLB"⟩,
  ⟨"lesotho", 121, "countryLS"⟩,
  ⟨"liberia", 122, "countryLR"⟩,
  ⟨"libyan_arab_jamahiriya", 123, "countryLY"⟩,
  ⟨"liechtenstein", 124, "countryLI"⟩,
  ⟨"lithuania", 125, "countryLT"⟩,
  ⟨"luxembourg", 126, "countryLU"⟩,
  ⟨"macao", 127, "countryMO"⟩,
  ⟨"_the_former_yugosalv_republic_of_macedonia", 128, "countryMK"⟩,
  ⟨"madagascar", 129, "countryMG"⟩,
  ⟨"malawi", 130, "countryMW"⟩,
  ⟨"malaysia", 131, "countryMY"⟩,
  ⟨"maldives", 132, "countryMV"⟩,
  ⟨"mali", 133, "countryML"⟩,
  ⟨"malta", 134, "countryMT"⟩,
  ⟨"marshall_islands", 135, "countryMH"⟩,
  ⟨"martinique", 136, "countryMQ"⟩,
  ⟨"mauritania", 137, "countryMR"⟩,
  ⟨"mauritius", 138, "countryMU"⟩,
  ⟨"mayotte", 139, "countryYT"⟩,
  ⟨"mexico", 140, "countryMX"⟩,
  ⟨"_federated_states_of_micronesia", 141, "countryFM"⟩,
  ⟨"_republic_of_moldova", 142, "countryMD"⟩,
  ⟨"monaco", 143, "countryMC"⟩,
  ⟨"mongolia", 144, "countryMN"⟩,
  ⟨"montserrat", 145, "countryMS"⟩,
  ⟨"morocco", 146, "countryMA"⟩,
  ⟨"mozambique", 147, "countryMZ"⟩,
  ⟨"myanmar", 148, "countryMM"⟩,
  ⟨"namibia", 149, "countryNA"⟩,
  ⟨"nauru", 150, "countryNR"⟩,
  ⟨"nepal", 151, "countryNP"⟩,
  ⟨"netherlands", 152, "countryNL"⟩,
  ⟨"netherlands_antilles", 153, "countryAN"⟩,
  ⟨"new_caledonia", 154, "countryNC"⟩,
  ⟨"new_zealand", 155, "countryNZ"⟩,
  ⟨"nicaragua", 156, "countryNI"⟩,
  ⟨"niger", 157, "countryNE"⟩,
  ⟨"nigeria", 158, "countryNG"⟩,
  ⟨"niue", 159, "countryNU"⟩]

/-- Declarations of `CountryCode`, part 4. -/
def ccDecls4 : List FlagDescriptor := [
  ⟨"norfolk_island", 160, "countryNF"⟩,
  ⟨"northern_mariana_islands", 161, "countryMP"⟩,
  ⟨"norway", 162, "countryNO"⟩,
  ⟨"oman", 163, "countryOM"⟩,
  ⟨"pakistan", 164, "countryPK"⟩,
  ⟨"palau", 165, "countryPW"⟩,
  ⟨"palestinian_territory", 166, "countryPS"⟩,
  ⟨"panama", 167, "countryPA"⟩,
  ⟨"papua_new_guinea", 168, "countryPG"⟩,
  ⟨"paraguay", 169, "countryPY"⟩,
  ⟨"peru", 170, "countryPE"⟩,
  ⟨"philippines", 171, "countryPH"⟩,
  ⟨"pitcairn", 172, "countryPN"⟩,
  ⟨"poland", 173, "countryPL"⟩,
  ⟨"portugal", 174, "countryPT"⟩,
  ⟨"puerto_rico", 175, "countryPR"⟩,
  ⟨"qatar", 176, "countryQA"⟩,
  ⟨"reunion", 177, "countryRE"⟩,
  ⟨"romania", 178, "countryRO"⟩,
  ⟨"russian_federation", 179, "countryRU"⟩,
  ⟨"rwanda", 180, "countryRW"⟩,
  ⟨"saint_helena", 181, "countrySH"⟩,
  ⟨"saint_kitts_and_nevis", 182, "countryKN"⟩,
  ⟨"saint_lucia", 183, "countryLC"⟩,
  ⟨"saint_pierre_and_miquelon", 184, "countryPM"⟩,
  ⟨"saint_vincent_and_the_grenadines", 185, "countryVC"⟩,
  ⟨"samoa", 186, "countryWS"⟩,
  ⟨"san_marino", 187, "countrySM"⟩,
  ⟨"sao_tome_and_principe", 188, "countryST"⟩,
  ⟨"saudi_arabia", 189, "countrySA"⟩,
  ⟨"senegal", 190, "countrySN"⟩,
  ⟨"serbia_and_montenegro", 191, "countryCS"⟩,
  ⟨"seychelles", 192, "countrySC"⟩,
  ⟨"sierra_leone", 193, "countrySL"⟩,
  ⟨"singapore", 194, "countrySG"⟩,
  ⟨"slovakia", 195, "countrySK"⟩,
  ⟨"slovenia", 196, "countrySI"⟩,
  ⟨"solomon_islands", 197, "countrySB"⟩,
  ⟨"somalia", 198, "countrySO"⟩,
  ⟨"south_africa", 199, "countryZA"⟩]

/-- Declarations of `CountryCode`, part 5. -/
def ccDecls5 : List FlagDescriptor := [
  ⟨"south_georgia_and_the_south_sandwich_islands", 200, "countryGS"⟩,
  ⟨"spain", 201, "countryES"⟩,
  ⟨"sri_lanka", 202, "countryLK"⟩,
  ⟨"sudan", 203, "countrySD"⟩,
  ⟨"suriname", 204, "countrySR"⟩,
  ⟨"svalbard_and_jan_mayen", 205, "countrySJ"⟩,
  ⟨"swaziland", 206, "countrySZ"⟩,
  ⟨"sweden", 207, "countrySE"⟩,
  ⟨"switzerland", 208, "countryCH"⟩,
  ⟨"syrian_arab_republic", 209, "countrySY"⟩,
  ⟨"_province_of_china_taiwan", 210, "countryTW"⟩,
  ⟨"tajikistan", 211, "countryTJ"⟩,
  ⟨"_united_republic_of_tanzania", 212, "countryTZ"⟩,
  ⟨"thailand", 213, "countryTH"⟩,
  ⟨"togo", 214, "countryTG"⟩,
  ⟨"tokelau", 215, "countryTK"⟩,
  ⟨"tonga", 216, "countryTO"⟩,
  ⟨"trinidad_and_tobago", 217, "countryTT"⟩,
  ⟨"tunisia", 218, "countryTN"⟩,
  ⟨"turkey", 219, "countryTR"⟩,
  ⟨"turkmenistan", 220, "countryTM"⟩,
  ⟨"turks_and_caicos_islands", 221, "countryTC"⟩,
  ⟨"tuvalu", 222, "countryTV"⟩,
  ⟨"uganda", 223, "countryUG"⟩,
  ⟨"ukraine", 224, "countryUA"⟩,
  ⟨"united_arab_emirates", 225, "countryAE"⟩,
  ⟨"united_kingdom", 226, "countryUK"⟩,
  ⟨"united_states", 227, "countryUS"⟩,
  ⟨"united_states_minor_outlying_islands", 228, "countryUM"⟩,
  ⟨"uruguay", 229, "countryUY"⟩,
  ⟨"uzbekistan", 230, "countryUZ"⟩,
  ⟨"vanuatu", 231, "countryVU"⟩,
  ⟨"venezuela", 232, "countryVE"⟩,
  ⟨"vietnam", 233, "countryVN"⟩,
  ⟨"_british_virgin_islands", 234, "countryVG"⟩,
  ⟨"_us_virgin_islands", 235, "countryVI"⟩,
  ⟨"wallis_and_futuna", 236, "countryWF"⟩,
  ⟨"western_sahara", 237, "countryEH"⟩,
  ⟨"yemen", 238, "countryYE"⟩,
  ⟨"yugoslavia", 239, "countryYU"⟩]

/-- Declarations of `CountryCode`, part 6. -/
def ccDecls6 : List FlagDescriptor := [
  ⟨"zambia", 240, "countryZM"⟩,
  ⟨"zimbabwe", 241, "countryZW"⟩]

/-- The `CountryCode` class: all 242 descriptors in declaration order. -/
def CountryCode : FlagClass := ⟨ccDecls0 ++ ccDecls1 ++ ccDecls2 ++ ccDecls3 ++ ccDecls4 ++ ccDecls5 ++ ccDecls6⟩

end cse


/-- Totality of the Python string order (needed to state that
`flag_values` is sorted). -/
instance : IsTotal String pyLeP := by
  constructor
  intro a b
  unfold pyLeP pyStrLe
  generalize a.data = as
  generalize b.data = bs
  induction as generalizing bs with
  | nil => left; rfl
  | cons x xs ih =>
    cases bs with
    | nil => right; rfl
    | cons y ys =>
      by_cases hxy : x = y
      · subst hxy
        simpa [pyCharListLe] using ih ys
      · have hnat : x.toNat ≠ y.toNat := fun h => hxy (Char.ext (UInt32.toNat.inj h))
        rcases Nat.lt_or_ge x.toNat y.toNat with h | h
        · left; simp [pyCharListLe, hxy, h]
        · right
          have : y.toNat < x.toNat := by omega
          simp [pyCharListLe, Ne.symm hxy, this]

instance : IsTrans String pyLeP := by
  constructor
  intro a b c
  unfold pyLeP pyStrLe
  generalize a.data = as
  generalize b.data = bs
  generalize c.data = cs
  induction as generalizing bs cs with
  | nil => intro _ _; rfl
  | cons x xs ih =>
    cases bs with
    | nil => intro h; exact absurd h (by simp [pyCharListLe])
    | cons y ys =>
      cases cs with
      | nil => intro _ h; exact absurd h (by simp [pyCharListLe])
      | cons z zs =>
        intro h1 h2
        by_cases hxy : x = y <;> by_cases hyz : y = z
        · subst hxy; subst hyz
          simp only [pyCharListLe, if_pos rfl] at h1 h2 ⊢
          exact ih ys zs h1 h2
        · subst hxy
          simp only [pyCharListLe, if_pos rfl, if_neg hyz] at h1 h2 ⊢
          exact h2
        · subst hyz
          simp only [pyCharListLe, if_neg hxy] at h1 ⊢
          exact h1
        · have hxz : x ≠ z := by
            intro he
            subst he
            simp only [pyCharListLe, if_neg hxy, if_neg hyz, decide_eq_true_eq] at h1 h2
            omega
          simp only [pyCharListLe, if_neg hxy, if_neg hyz, decide_eq_true_eq] at h1 h2
          simp only [pyCharListLe, if_neg hxz, decide_eq_true_eq]
          omega

/-- The complement instance of claim C3: the value whose set flags are
exactly the unset flags of `v` (for `v < 2^N`): `all() XOR v`. -/
def complValue (c : FlagClass) (v : Nat) : Nat := FlagClass.all c ^^^ v

/-- Values reachable through the public constructors (`none`, `all`,
`from_flags`) and any sequence of successful attribute assignments
(claim C8). -/
inductive Reachable (c : FlagClass) : Nat → Prop
  | fromNone : Reachable c (FlagClass.none c)
  | fromAll : Reachable c (FlagClass.all c)
  | fromFlags (kwargs : List (String × Bool)) (v : Nat) :
      from_flags c kwargs = .ok v → Reachable c v
  | fromSet (v : Nat) (n : String) (b : Bool) (w : Nat) :
      Reachable c v → pySetattr c v n b = .ok w → Reachable c w

/-- Modelled from the spec (claim C5's decoding procedure, which has no
counterpart in `src/`): splitting a character list on a separator
character, as Python `str.split` does on `'|'`. -/
def splitOnChar (sep : Char) : List Char → List (List Char)
  | [] => [[]]
  | c :: cs =>
    if c = sep then [] :: splitOnChar sep cs
    else
      match splitOnChar sep cs with
      | [] => [[c]]
      | g :: gs => (c :: g) :: gs

/-- Modelled from the spec: the `|`-separated tokens of a wire string. -/
def wireTokens (s : String) : List String :=
  (splitOnChar '|' s.data).map (fun cs => String.mk cs)

/-- Modelled from the spec: mapping a wire token back to its flag
descriptor through the descriptor table (the docstring column). -/
def tokenDescr (c : FlagClass) (t : String) : Option FlagDescriptor :=
  c.decls.find? (fun d => d.doc == t)

/-- Modelled from the spec: the bit mask named by a token list, `none` if
some token is not a registered wire token. -/
def tokensMask (c : FlagClass) : List String → Option Nat
  | [] => some 0
  | t :: ts =>
    match tokenDescr c t, tokensMask c ts with
    | some d, some m => some (flagMask d ||| m)
    | _, _ => Option.none

/-- Modelled from the spec (claim C5): decode a wire string produced by
`to_google_flags` — strip the `-( … )` wrapper if present, split on `|`,
map each token back to its flag via the descriptor table, and rebuild the
value (the negated form lists the unset flags, so its value is the full
pattern minus the listed bits). -/
def wireDecode (c : FlagClass) (s : String) : Option Nat :=
  if s.data.take 2 = ['-', '('] ∧ s.data.getLast? = some ')' then
    (tokensMask c (wireTokens (String.mk ((s.data.drop 2).dropLast)))).map
      (fun m => (2 ^ nflags c - 1) ^^^ m)
  else
    tokensMask c (wireTokens s)

/-- Character-level form of `pyJoin`, used to reason about splitting. -/
def charJoin (sep : Char) : List (List Char) → List Char
  | [] => []
  | [x] => x
  | x :: y :: r => x ++ sep :: charJoin sep (y :: r)

/-! ### Basic facts about the embedded operations -/

/-! Sanity checks: the embedding evaluates as the Python code does on
concrete `Language` values. -/

example : WF cse.Language := by decide
example : nflags cse.Language = 35 := by decide
example : to_google_flags cse.Language ((1 <<< 7) ||| (1 <<< 11)) = some "lang_en|lang_fr" := by decide
example : to_google_flags cse.Language 0 = Option.none := by decide
example : to_google_flags cse.Language (2 ^ 35 - 1) = Option.none := by decide
example : to_google_flags cse.Language (2 ^ 35 - 1 - 2 ^ 7) = some "-(lang_en)" := by decide
example : from_flags cse.Language [("klingon", true)] = .error "klingon" := by decide
example : from_flags cse.Language [("english", true), ("french", true)] = .ok ((1 <<< 7) ||| (1 <<< 11)) := by decide

theorem countOnesFuel_congr : ∀ (f₁ f₂ v : Nat), v ≤ f₁ → v ≤ f₂ →
    countOnesFuel f₁ v = countOnesFuel f₂ v := by
  intro f₁
  induction f₁ using Nat.strong_induction_on with
  | _ f₁ ih =>
    intro f₂ v h₁ h₂
    match f₁, f₂ with
    | 0, f₂ =>
      have : v = 0 := Nat.le_zero.mp h₁
      subst this
      cases f₂ <;> simp [countOnesFuel]
    | f₁ + 1, 0 =>
      have : v = 0 := Nat.le_zero.mp h₂
      subst this
      simp [countOnesFuel]
    | f₁ + 1, f₂ + 1 =>
      by_cases hv : v = 0
      · subst hv; simp [countOnesFuel]
      · have hd : v / 2 < v := Nat.div_lt_self (Nat.pos_of_ne_zero hv) (by omega)
        have h₁' : v / 2 ≤ f₁ := by omega
        have h₂' : v / 2 ≤ f₂ := by omega
        simp only [countOnesFuel, if_neg hv]
        rw [ih f₁ (by omega) f₂ (v / 2) h₁' h₂']

theorem countOnes_unfold (v : Nat) :
    countOnes v = if v = 0 then 0 else v % 2 + countOnes (v / 2) := by
  by_cases hv : v = 0
  · subst hv; simp [countOnes, countOnesFuel]
  · have hpos : 0 < v := Nat.pos_of_ne_zero hv
    unfold countOnes
    match hv' : v, hpos with
    | w + 1, _ =>
      simp only [countOnesFuel, if_neg hv]
      by_cases h0 : w = 0
      · subst h0; simp [countOnesFuel]
      · exact congrArg (_ + ·)
          (countOnesFuel_congr w ((w + 1) / 2) ((w + 1) / 2)
            (by omega) (Nat.le_refl _))

theorem countOnes_zero : countOnes 0 = 0 := rfl

theorem countOnes_two_pow_sub_one (n : Nat) : countOnes (2 ^ n - 1) = n := by
  induction n with
  | zero => simp [countOnes, countOnesFuel]
  | succ n ih =>
    have h2 : 2 ^ (n + 1) - 1 = 2 * (2 ^ n - 1) + 1 := by
      have := Nat.one_le_two_pow (n := n)
      rw [Nat.pow_succ]; omega
    rw [h2, countOnes_unfold]
    have hne : 2 * (2 ^ n - 1) + 1 ≠ 0 := by omega
    rw [if_neg hne]
    have hmod : (2 * (2 ^ n - 1) + 1) % 2 = 1 := by omega
    have hdiv : (2 * (2 ^ n - 1) + 1) / 2 = 2 ^ n - 1 := by omega
    rw [hmod, hdiv, ih]
    omega

theorem countOnes_eq_countP_range : ∀ (n v : Nat), v < 2 ^ n →
    countOnes v = (List.range n).countP (fun i => v.testBit i) := by
  intro n
  induction n with
  | zero =>
    intro v hv
    have : v = 0 := by simpa using hv
    subst this
    simp [countOnes_zero]
  | succ n ih =>
    intro v hv
    rw [List.range_succ_eq_map, countOnes_unfold]
    by_cases hv0 : v = 0
    · subst hv0; simp
    · rw [if_neg hv0]
      have hdiv : v / 2 < 2 ^ n := by
        rw [Nat.pow_succ] at hv; omega
      rw [ih (v / 2) hdiv]
      simp only [List.countP_cons, List.countP_map]
      have hcomp : ((fun i => v.testBit i) ∘ Nat.succ) = fun i => (v / 2).testBit i :=
        funext fun i => Nat.testBit_succ v i
      rw [hcomp]
      simp only [Nat.testBit_zero]
      rcases Nat.mod_two_eq_zero_or_one v with h | h <;>
        · simp [h]
          try omega

theorem countOnes_le (n v : Nat) (hv : v < 2 ^ n) : countOnes v ≤ n := by
  rw [countOnes_eq_countP_range n v hv]
  calc (List.range n).countP (fun i => v.testBit i) ≤ (List.range n).length :=
        List.countP_le_length _
    _ = n := List.length_range n

theorem countOnes_pos_of_ne_zero (v : Nat) (hv : v ≠ 0) : 0 < countOnes v := by
  rw [countOnes_unfold, if_neg hv]
  rcases Nat.mod_two_eq_zero_or_one v with h | h
  · have hv2 : v / 2 ≠ 0 := by omega
    have := countOnes_pos_of_ne_zero (v / 2) hv2
    omega
  · omega
decreasing_by exact Nat.div_lt_self (Nat.pos_of_ne_zero hv) (by omega)

theorem flagMask_eq (d : FlagDescriptor) : flagMask d = 2 ^ d.bit :=
  Nat.one_shiftLeft d.bit

theorem has_flag_eq_testBit (v : Nat) (d : FlagDescriptor) :
    _has_flag v (flagMask d) = v.testBit d.bit := by
  rw [flagMask_eq]
  cases hb : v.testBit d.bit with
  | true =>
    have : v &&& 2 ^ d.bit = 2 ^ d.bit := by
      apply Nat.eq_of_testBit_eq
      intro j
      rw [Nat.testBit_and]
      by_cases hj : d.bit = j
      · subst hj; simp [hb]
      · simp [Nat.testBit_two_pow_of_ne hj]
    simp [_has_flag, this]
  | false =>
    have : v &&& 2 ^ d.bit = 0 := by
      apply Nat.eq_of_testBit_eq
      intro j
      rw [Nat.testBit_and]
      by_cases hj : d.bit = j
      · subst hj; simp [hb]
      · simp [Nat.testBit_two_pow_of_ne hj]
    simp only [_has_flag, this]
    have h2 : 2 ^ d.bit ≠ 0 := Nat.pos_iff_ne_zero.mp (Nat.two_pow_pos d.bit)
    simp [Ne.symm h2]

theorem set_flag_true_testBit (v : Nat) (d : FlagDescriptor) (j : Nat) :
    (_set_flag v (flagMask d) true).testBit j = (v.testBit j || decide (d.bit = j)) := by
  simp only [_set_flag, if_pos, flagMask_eq, Nat.testBit_or, Nat.testBit_two_pow]

theorem set_flag_false_testBit (v : Nat) (d : FlagDescriptor) (j : Nat) :
    (_set_flag v (flagMask d) false).testBit j = (v.testBit j && !decide (d.bit = j)) := by
  simp only [_set_flag, flagMask_eq, Bool.false_eq_true, if_false,
    Nat.testBit_xor, Nat.testBit_and, Nat.testBit_two_pow]
  cases v.testBit j <;> cases hj : decide (d.bit = j) <;> simp

theorem nflags_eq_length (c : FlagClass) : nflags c = c.decls.length := by
  unfold nflags flag_values
  rw [(List.perm_insertionSort pyLeP _).length_eq, List.length_map]

theorem flag_values_perm (c : FlagClass) :
    List.Perm (flag_values c) (c.decls.map (fun d => d.name)) :=
  List.perm_insertionSort pyLeP _

theorem map_nodup_inj {α β : Type} {l : List α} {f : α → β}
    (h : (l.map f).Nodup) :
    ∀ x ∈ l, ∀ y ∈ l, f x = f y → x = y := by
  induction l with
  | nil => intro x hx; simp at hx
  | cons a l ih =>
    simp only [List.map_cons, List.nodup_cons] at h
    intro x hx y hy hf
    rcases List.mem_cons.mp hx with rfl | hx' <;>
      rcases List.mem_cons.mp hy with rfl | hy'
    · rfl
    · exact absurd (hf ▸ List.mem_map_of_mem f hy') h.1
    · exact absurd (hf ▸ List.mem_map_of_mem f hx') h.1
    · exact ih h.2 x hx' y hy' hf

theorem find?_name_eq_some_of_mem {l : List FlagDescriptor} {d : FlagDescriptor}
    (hnd : (l.map (fun e => e.name)).Nodup) (hd : d ∈ l) :
    l.find? (fun e => e.name == d.name) = some d := by
  induction l with
  | nil => simp at hd
  | cons a l ih =>
    simp only [List.map_cons, List.nodup_cons] at hnd
    rcases List.mem_cons.mp hd with rfl | hd'
    · simp [List.find?_cons]
    · have hne : (a.name == d.name) = false := by
        rw [beq_eq_false_iff_ne]
        intro he
        exact hnd.1 (he ▸ List.mem_map_of_mem _ hd')
      simp only [List.find?_cons, hne]
      exact ih hnd.2 hd'

theorem findDescr_eq_some_of_mem {c : FlagClass} {d : FlagDescriptor}
    (hnd : (c.decls.map (fun e => e.name)).Nodup) (hd : d ∈ c.decls) :
    findDescr c d.name = some d :=
  find?_name_eq_some_of_mem hnd hd

theorem findDescr_mem {c : FlagClass} {n : String} {d : FlagDescriptor}
    (h : findDescr c n = some d) : d ∈ c.decls ∧ d.name = n := by
  refine ⟨List.mem_of_find?_eq_some h, ?_⟩
  have := List.find?_some h
  simpa [beq_iff_eq] using this

theorem iterate_perm {c : FlagClass} (v : Nat)
    (hnd : (c.decls.map (fun e => e.name)).Nodup) :
    List.Perm (iterate c v)
      (c.decls.map (fun d => (d.name, v.testBit d.bit))) := by
  unfold iterate
  have hperm := (flag_values_perm c).map
    (fun n => (n, (getFlag c v n).getD false))
  refine hperm.trans (List.Perm.of_eq ?_)
  rw [List.map_map]
  apply List.map_congr_left
  intro d hd
  have hfind : findDescr c d.name = some d := findDescr_eq_some_of_mem hnd hd
  simp [Function.comp, getFlag, hfind, has_flag_eq_testBit]

theorem setCount_eq_countOnes {c : FlagClass} {v : Nat}
    (hnd : (c.decls.map (fun e => e.name)).Nodup)
    (hbits : c.decls.map (fun d => d.bit) = List.range c.decls.length)
    (hv : v < 2 ^ nflags c) :
    setCount c v = countOnes v := by
  unfold setCount
  rw [(iterate_perm v hnd).countP_eq]
  rw [List.countP_map]
  have : ((fun p : String × Bool => p.2) ∘ fun d => (d.name, v.testBit d.bit)) =
      (fun d : FlagDescriptor => v.testBit d.bit) := rfl
  rw [this]
  have h1 : c.decls.countP (fun d => v.testBit d.bit) =
      (c.decls.map (fun d => d.bit)).countP (fun i => v.testBit i) := by
    rw [List.countP_map]; rfl
  rw [h1, hbits, ← countOnes_eq_countP_range c.decls.length v
    (by rwa [nflags_eq_length] at hv)]

/-! ### Branch analysis of `to_google_flags` -/

theorem tgf_none_iff (c : FlagClass) (v : Nat) :
    to_google_flags c v = Option.none ↔ v = 0 ∨ v = 2 ^ nflags c - 1 := by
  unfold to_google_flags _all_flags_enabled
  rw [Nat.one_shiftLeft]
  by_cases h : v = 0 ∨ v = 2 ^ nflags c - 1
  · rcases h with h | h <;> simp [h]
  · push_neg at h
    rw [if_neg (by simp [h.1, h.2])]
    simp [h.1, h.2]
    split <;> simp

theorem tgf_eq_negated {c : FlagClass} {v : Nat}
    (h0 : v ≠ 0) (hfull : v ≠ 2 ^ nflags c - 1)
    (hgt : 2 * countOnes v > nflags c) :
    to_google_flags c v = some (negatedList c v) := by
  unfold to_google_flags _all_flags_enabled
  rw [Nat.one_shiftLeft, if_neg (by simp [h0, hfull]), if_pos hgt]

theorem tgf_eq_positive {c : FlagClass} {v : Nat}
    (h0 : v ≠ 0) (hfull : v ≠ 2 ^ nflags c - 1)
    (hle : ¬ 2 * countOnes v > nflags c) :
    to_google_flags c v = some (positiveList c v) := by
  unfold to_google_flags _all_flags_enabled
  rw [Nat.one_shiftLeft, if_neg (by simp [h0, hfull]), if_neg hle]

/-! ### Shape of the produced strings -/

theorem pyJoin_data_cons (sep t : String) (ts : List String) (ht : t.data ≠ []) :
    (pyJoin sep (t :: ts)).data.head? = t.data.head? := by
  cases ts with
  | nil => rfl
  | cons u us =>
    show ((t ++ sep ++ pyJoin sep (u :: us)).data).head? = _
    simp only [String.data_append]
    rw [List.append_assoc, List.head?_append_of_ne_nil _ ht]

theorem negatedList_head (c : FlagClass) (v : Nat) :
    (negatedList c v).data.head? = some '-' := by
  unfold negatedList
  simp only [String.data_append]
  rfl

theorem mem_setDocs {c : FlagClass} {v : Nat} {t : String}
    (h : t ∈ setDocs c v) :
    ∃ d ∈ c.decls, d.doc = t ∧ v.testBit d.bit = true := by
  unfold setDocs at h
  rcases List.mem_map.mp h with ⟨p, hp, rfl⟩
  rcases List.mem_filter.mp hp with ⟨hpi, hptrue⟩
  unfold iterate at hpi
  rcases List.mem_map.mp hpi with ⟨n, hn, rfl⟩
  have hn' : n ∈ c.decls.map (fun d => d.name) :=
    (flag_values_perm c).mem_iff.mp hn
  have hfind : (findDescr c n).isSome := by
    unfold findDescr
    rw [List.find?_isSome]
    rcases List.mem_map.mp hn' with ⟨d, hd, rfl⟩
    exact ⟨d, hd, by simp⟩
  rcases Option.isSome_iff_exists.mp hfind with ⟨d, hd⟩
  have hmem := findDescr_mem hd
  refine ⟨d, hmem.1, ?_, ?_⟩
  · simp [docOf, hd]
  · have : ((getFlag c v n).getD false) = true := hptrue
    rw [getFlag, hd] at this
    simpa [has_flag_eq_testBit] using this

theorem mem_unsetDocs {c : FlagClass} {v : Nat} {t : String}
    (h : t ∈ unsetDocs c v) :
    ∃ d ∈ c.decls, d.doc = t ∧ v.testBit d.bit = false := by
  unfold unsetDocs at h
  rcases List.mem_map.mp h with ⟨p, hp, rfl⟩
  rcases List.mem_filter.mp hp with ⟨hpi, hpfalse⟩
  unfold iterate at hpi
  rcases List.mem_map.mp hpi with ⟨n, hn, rfl⟩
  have hn' : n ∈ c.decls.map (fun d => d.name) :=
    (flag_values_perm c).mem_iff.mp hn
  have hfind : (findDescr c n).isSome := by
    unfold findDescr
    rw [List.find?_isSome]
    rcases List.mem_map.mp hn' with ⟨d, hd, rfl⟩
    exact ⟨d, hd, by simp⟩
  rcases Option.isSome_iff_exists.mp hfind with ⟨d, hd⟩
  have hmem := findDescr_mem hd
  refine ⟨d, hmem.1, ?_, ?_⟩
  · simp [docOf, hd]
  · have : (!(getFlag c v n).getD false) = true := hpfalse
    rw [getFlag, hd] at this
    simpa [has_flag_eq_testBit] using this

theorem mem_setDocs_of_descr {c : FlagClass} {v : Nat} {d : FlagDescriptor}
    (hnd : (c.decls.map (fun e => e.name)).Nodup)
    (hd : d ∈ c.decls) (hbit : v.testBit d.bit = true) :
    d.doc ∈ setDocs c v := by
  have hfind : findDescr c d.name = some d := findDescr_eq_some_of_mem hnd hd
  have hpair : (d.name, (getFlag c v d.name).getD false) ∈ iterate c v := by
    unfold iterate
    exact List.mem_map_of_mem _
      ((flag_values_perm c).mem_iff.mpr (List.mem_map_of_mem _ hd))
  have hsnd : (getFlag c v d.name).getD false = true := by
    simp [getFlag, hfind, has_flag_eq_testBit, hbit]
  unfold setDocs
  refine List.mem_map.mpr ⟨(d.name, (getFlag c v d.name).getD false), ?_, ?_⟩
  · exact List.mem_filter.mpr ⟨hpair, by simp [hsnd]⟩
  · simp [docOf, hfind]

theorem mem_unsetDocs_of_descr {c : FlagClass} {v : Nat} {d : FlagDescriptor}
    (hnd : (c.decls.map (fun e => e.name)).Nodup)
    (hd : d ∈ c.decls) (hbit : v.testBit d.bit = false) :
    d.doc ∈ unsetDocs c v := by
  have hfind : findDescr c d.name = some d := findDescr_eq_some_of_mem hnd hd
  have hpair : (d.name, (getFlag c v d.name).getD false) ∈ iterate c v := by
    unfold iterate
    exact List.mem_map_of_mem _
      ((flag_values_perm c).mem_iff.mpr (List.mem_map_of_mem _ hd))
  have hsnd : (getFlag c v d.name).getD false = false := by
    simp [getFlag, hfind, has_flag_eq_testBit, hbit]
  unfold unsetDocs
  refine List.mem_map.mpr ⟨(d.name, (getFlag c v d.name).getD false), ?_, ?_⟩
  · exact List.mem_filter.mpr ⟨hpair, by simp [hsnd]⟩
  · simp [docOf, hfind]

theorem exists_descr_testBit_true {c : FlagClass} {v : Nat}
    (hbits : c.decls.map (fun d => d.bit) = List.range c.decls.length)
    (hv : v < 2 ^ nflags c) (h0 : v ≠ 0) :
    ∃ d ∈ c.decls, v.testBit d.bit = true := by
  have hj : ∃ j, v.testBit j = true := by
    by_contra hall
    push_neg at hall
    exact h0 (Nat.eq_of_testBit_eq (fun j => by
      rw [Nat.zero_testBit]
      exact Bool.eq_false_iff.mpr (fun ht => (hall j) ht)))
  rcases hj with ⟨j, hj⟩
  have hge : 2 ^ j ≤ v := Nat.testBit_implies_ge hj
  have hlt : j < c.decls.length := by
    rw [nflags_eq_length] at hv
    by_contra hge'
    push_neg at hge'
    have : (2 : Nat) ^ c.decls.length ≤ 2 ^ j :=
      Nat.pow_le_pow_right (by omega) hge'
    omega
  have : j ∈ c.decls.map (fun d => d.bit) := by
    rw [hbits]
    exact List.mem_range.mpr hlt
  rcases List.mem_map.mp this with ⟨d, hd, rfl⟩
  exact ⟨d, hd, hj⟩

theorem exists_descr_testBit_false {c : FlagClass} {v : Nat}
    (hbits : c.decls.map (fun d => d.bit) = List.range c.decls.length)
    (hv : v < 2 ^ nflags c) (hfull : v ≠ 2 ^ nflags c - 1) :
    ∃ d ∈ c.decls, v.testBit d.bit = false := by
  by_contra hall
  push_neg at hall
  apply hfull
  apply Nat.eq_of_testBit_eq
  intro j
  rw [nflags_eq_length] at hv ⊢
  rw [Nat.testBit_two_pow_sub_one]
  by_cases hj : j < c.decls.length
  · have : j ∈ c.decls.map (fun d => d.bit) := by
      rw [hbits]
      exact List.mem_range.mpr hj
    rcases List.mem_map.mp this with ⟨d, hd, rfl⟩
    simp [hall d hd, hj]
  · push_neg at hj
    have hvj : v.testBit j = false := by
      apply Nat.testBit_lt_two_pow
      calc v < 2 ^ c.decls.length := hv
        _ ≤ 2 ^ j := Nat.pow_le_pow_right (by omega) hj
    simp [hvj, hj, Nat.not_lt.mpr hj]

theorem setDocs_ne_nil {c : FlagClass} {v : Nat}
    (hnd : (c.decls.map (fun e => e.name)).Nodup)
    (hbits : c.decls.map (fun d => d.bit) = List.range c.decls.length)
    (hv : v < 2 ^ nflags c) (h0 : v ≠ 0) :
    setDocs c v ≠ [] := by
  rcases exists_descr_testBit_true hbits hv h0 with ⟨d, hd, hbit⟩
  exact List.ne_nil_of_mem (mem_setDocs_of_descr hnd hd hbit)

theorem unsetDocs_ne_nil {c : FlagClass} {v : Nat}
    (hnd : (c.decls.map (fun e => e.name)).Nodup)
    (hbits : c.decls.map (fun d => d.bit) = List.range c.decls.length)
    (hv : v < 2 ^ nflags c) (hfull : v ≠ 2 ^ nflags c - 1) :
    unsetDocs c v ≠ [] := by
  rcases exists_descr_testBit_false hbits hv hfull with ⟨d, hd, hbit⟩
  exact List.ne_nil_of_mem (mem_unsetDocs_of_descr hnd hd hbit)

theorem positiveList_head_ne {c : FlagClass} {v w : Nat}
    (hdocs : ∀ d ∈ c.decls, d.doc ≠ "" ∧ d.doc.data.head? ≠ some '-')
    (hne : setDocs c v ≠ []) :
    positiveList c v ≠ negatedList c w := by
  intro heq
  have hdata : (positiveList c v).data.head? = some '-' := by
    rw [heq, negatedList_head]
  cases hsd : setDocs c v with
  | nil => exact hne hsd
  | cons t ts =>
    have ht : t ∈ setDocs c v := hsd ▸ List.mem_cons_self t ts
    rcases mem_setDocs ht with ⟨d, hd, hdoc, _⟩
    have hprop := hdocs d hd
    have htne : t.data ≠ [] := by
      intro hnil
      exact hprop.1 (hdoc ▸ String.ext hnil)
    rw [positiveList, hsd, pyJoin_data_cons _ _ _ htne] at hdata
    rw [← hdoc] at hdata
    exact hprop.2 hdata

theorem positiveList_ne_negatedList {c : FlagClass} {v w : Nat}
    (hWF : WF c) (hv : v < 2 ^ nflags c) (h0 : v ≠ 0) :
    positiveList c v ≠ negatedList c w := by
  rcases hWF with ⟨hnd, _, hbits, hdocs, _, _⟩
  exact positiveList_head_ne
    (fun d hd => ⟨(hdocs d hd).1, (hdocs d hd).2.1⟩)
    (setDocs_ne_nil hnd hbits hv h0)

/-! ### Claim theorems -/

/-- C1: for every enumeration instance whose set-flag count `k` satisfies
`0 < k < N`, `to_google_flags` chooses the negated-list encoding exactly
when `k` is strictly greater than `N / 2` (Python true division, stated
over `ℚ` and equivalent to the integer guard `2 * k > N`), and the
positive-list encoding otherwise; in particular at an exact tie
(`k = N / 2`, `N` even) the positive list is produced, never the negated
one. -/
theorem spec_C1 (c : FlagClass) (v k : Nat) (hWF : WF c)
    (hv : v < 2 ^ nflags c) (hk : k = setCount c v)
    (h0 : 0 < k) (hN : k < nflags c) :
    (((k : ℚ) > (nflags c : ℚ) / 2) ↔ 2 * k > nflags c)
    ∧ (2 * k > nflags c → to_google_flags c v = some (negatedList c v))
    ∧ (2 * k ≤ nflags c →
        to_google_flags c v = some (positiveList c v)
        ∧ to_google_flags c v ≠ some (negatedList c v)) := by
  obtain ⟨hnd, hdnd, hbits, hdocs, hval, hne⟩ := hWF
  have hkc : k = countOnes v := by
    rw [hk]
    exact setCount_eq_countOnes hnd hbits hv
  have h0' : v ≠ 0 := by
    intro hv0
    rw [hkc, hv0, countOnes_zero] at h0
    omega
  have hfull : v ≠ 2 ^ nflags c - 1 := by
    intro hvf
    rw [hkc, hvf] at hN
    rw [countOnes_two_pow_sub_one] at hN
    omega
  refine ⟨gt_half_iff k (nflags c), ?_, ?_⟩
  · intro hgt
    exact tgf_eq_negated h0' hfull (hkc ▸ hgt)
  · intro hle
    have hle' : ¬ 2 * countOnes v > nflags c := by omega
    constructor
    · exact tgf_eq_positive h0' hfull (by rw [← hkc]; omega)
    · rw [tgf_eq_positive h0' hfull (by rw [← hkc]; omega)]
      intro hsome
      exact positiveList_ne_negatedList ⟨hnd, hdnd, hbits, hdocs, hval, hne⟩
        hv h0' (Option.some_injective _ hsome)

/-- Witness for C1 at the concrete instance `Language` with value `1`
(only `arabic` set, so `k = 1`). -/
theorem spec_C1_witness :
    (((1 : ℚ) > (nflags cse.Language : ℚ) / 2) ↔ 2 * 1 > nflags cse.Language)
    ∧ (2 * 1 > nflags cse.Language →
        to_google_flags cse.Language 1 = some (negatedList cse.Language 1))
    ∧ (2 * 1 ≤ nflags cse.Language →
        to_google_flags cse.Language 1 = some (positiveList cse.Language 1)
        ∧ to_google_flags cse.Language 1 ≠ some (negatedList cse.Language 1)) :=
  spec_C1 cse.Language 1 1 (by decide) (by decide) (by decide)
    (by decide) (by decide)

/-- C2: for every enumeration type, `to_google_flags` returns `None`
(parameter omitted) exactly when the value is `0` or the full pattern
`2^N - 1`; in particular `none()` and `all()` both serialize to `None`. -/
theorem spec_C2 (c : FlagClass) (v : Nat) :
    (to_google_flags c v = Option.none ↔ v = 0 ∨ v = 2 ^ nflags c - 1)
    ∧ to_google_flags c (FlagClass.none c) = Option.none
    ∧ to_google_flags c (FlagClass.all c) = Option.none := by
  refine ⟨tgf_none_iff c v, ?_, ?_⟩
  · exact (tgf_none_iff c _).mpr (Or.inl rfl)
  · exact (tgf_none_iff c _).mpr (Or.inr rfl)

/-- C9 (implicit): `to_google_flags` never returns the empty string; its
result is either `None` or a non-empty token string. -/
theorem spec_C9 (c : FlagClass) (v : Nat) (hWF : WF c)
    (hv : v < 2 ^ nflags c) :
    to_google_flags c v ≠ some "" := by
  by_cases h0 : v = 0 ∨ v = 2 ^ nflags c - 1
  · rw [(tgf_none_iff c v).mpr h0]
    simp
  · push_neg at h0
    obtain ⟨hnd, hdnd, hbits, hdocs, hval, hcne⟩ := hWF
    by_cases hgt : 2 * countOnes v > nflags c
    · rw [tgf_eq_negated h0.1 h0.2 hgt]
      intro h
      have hstr := Option.some_injective _ h
      have : (negatedList c v).data.head? = Option.none := by
        rw [hstr]; rfl
      rw [negatedList_head] at this
      exact Option.noConfusion this
    · rw [tgf_eq_positive h0.1 h0.2 hgt]
      intro h
      have hstr := Option.some_injective _ h
      have hne := setDocs_ne_nil hnd hbits hv h0.1
      cases hsd : setDocs c v with
      | nil => exact hne hsd
      | cons t ts =>
        have ht : t ∈ setDocs c v := hsd ▸ List.mem_cons_self t ts
        rcases mem_setDocs ht with ⟨d, hd, hdoc, _⟩
        have htne : t.data ≠ [] := by
          intro hnil
          exact (hdocs d hd).1 (hdoc ▸ String.ext hnil)
        have : (positiveList c v).data.head? = Option.none := by
          rw [hstr]; rfl
        rw [positiveList, hsd, pyJoin_data_cons _ _ _ htne] at this
        cases hcase : t.data with
        | nil => exact htne hcase
        | cons a as => rw [hcase] at this; exact Option.noConfusion this

/-- Witness for C9 at `Language` with value `1`. -/
theorem spec_C9_witness : to_google_flags cse.Language 1 ≠ some "" :=
  spec_C9 cse.Language 1 (by decide) (by decide)

/-- C10 (implicit frame property): writing a registered flag `n` to `b`
makes `get n` read `b`, and leaves `get m` unchanged for every other
attribute name `m` (no other flag bit is touched). -/
theorem spec_C10 (c : FlagClass) (v : Nat) (n : String) (b : Bool)
    (d : FlagDescriptor) (v' : Nat) (hWF : WF c)
    (hfind : findDescr c n = some d)
    (hset : pySetattr c v n b = .ok v') :
    getFlag c v' n = some b
    ∧ ∀ m : String, m ≠ n → getFlag c v' m = getFlag c v m := by
  obtain ⟨hnd, hdnd, hbits, hdocs, hval, hcne⟩ := hWF
  have hv' : v' = _set_flag v (flagMask d) b := by
    unfold pySetattr at hset
    rw [hfind] at hset
    exact (Except.ok.inj hset).symm
  subst hv'
  constructor
  · rw [getFlag, hfind]
    simp only [Option.map_some']
    congr 1
    rw [has_flag_eq_testBit]
    cases b
    · rw [set_flag_false_testBit]
      simp
    · rw [set_flag_true_testBit]
      simp
  · intro m hm
    rw [getFlag, getFlag]
    cases hfm : findDescr c m with
    | none => simp
    | some e =>
      simp only [Option.map_some']
      congr 1
      rw [has_flag_eq_testBit, has_flag_eq_testBit]
      have hdm := findDescr_mem hfm
      have hdn := findDescr_mem hfind
      have hne_de : e ≠ d := by
        intro hed
        apply hm
        rw [← hdm.2, ← hdn.2, hed]
      have hbitne : d.bit ≠ e.bit := by
        intro hbe
        exact hne_de (map_nodup_inj (hbits ▸ List.nodup_range _)
          e hdm.1 d hdn.1 hbe.symm)
      cases b
      · rw [set_flag_false_testBit]
        simp [hbitne]
      · rw [set_flag_true_testBit]
        simp [hbitne]

/-- Witness for C10: on `Language`, setting `english` on value `0`
yields `get english = true` and leaves every other flag unchanged. -/
theorem spec_C10_witness :
    getFlag cse.Language (_set_flag 0 (flagMask ⟨"english", 7, "lang_en"⟩) true) "english" = some true
    ∧ ∀ m : String, m ≠ "english" →
        getFlag cse.Language (_set_flag 0 (flagMask ⟨"english", 7, "lang_en"⟩) true) m =
          getFlag cse.Language 0 m :=
  spec_C10 cse.Language 0 "english" true ⟨"english", 7, "lang_en"⟩
    (_set_flag 0 (flagMask ⟨"english", 7, "lang_en"⟩) true)
    (by decide) (by decide) (by decide)

theorem pySetattr_ok_of_hasattr {c : FlagClass} {n : String}
    (h : pyHasattr c n = true) (v : Nat) (b : Bool) :
    ∃ w, pySetattr c v n b = .ok w := by
  unfold pyHasattr at h
  unfold pySetattr
  cases hf : findDescr c n with
  | some d => exact ⟨_, rfl⟩
  | none =>
    rw [hf] at h
    simp only [Option.isSome_none, Bool.false_or] at h
    exact ⟨_, by rw [if_pos h]⟩

theorem from_flags_step_error {c : FlagClass} {n : String} {b : Bool}
    {rest : List (String × Bool)} (hn : pyHasattr c n = false) :
    ∀ (kw : List (String × Bool)), (∀ p ∈ kw, pyHasattr c p.1 = true) →
    ∀ (w : Nat),
    (kw ++ (n, b) :: rest).foldlM
      (fun v p => if pyHasattr c p.1 then pySetattr c v p.1 p.2
                  else Except.error p.1) w
      = Except.error n := by
  intro kw
  induction kw with
  | nil =>
    intro _ w
    rw [List.nil_append, List.foldlM_cons, if_neg (by rw [hn]; exact Bool.false_ne_true)]
    rfl
  | cons q kws ih =>
    intro hall w
    rw [List.cons_append, List.foldlM_cons]
    have hq : pyHasattr c q.1 = true := hall q (List.mem_cons_self q kws)
    rw [if_pos hq]
    rcases pySetattr_ok_of_hasattr hq w q.2 with ⟨w', hw'⟩
    rw [hw']
    exact ih (fun p hp => hall p (List.mem_cons_of_mem q hp)) w'

/-- C7 (corrected): referencing a name that is neither a registered flag
name nor the reserved internal `value` field raises an unknown-flag
`AttributeError` carrying the name — both in `from_flags` (at the first
offending keyword, after all earlier valid keywords were applied) and in
attribute assignment — and never acts as a silent no-op.  (The original
claim, which required the error for every name outside the descriptor
table, fails for the name `"value"` in `from_flags`: see the
counterexample.) -/
theorem spec_C7 (c : FlagClass) (n : String) (b : Bool)
    (kw rest : List (String × Bool)) (v : Nat)
    (hkw : ∀ p ∈ kw, pyHasattr c p.1 = true)
    (hn : findDescr c n = Option.none) (hnv : n ≠ "value") :
    from_flags c (kw ++ (n, b) :: rest) = Except.error n
    ∧ pySetattr c v n b = Except.error n := by
  have hbeq : (n == "value") = false := beq_eq_false_iff_ne.mpr hnv
  have hha : pyHasattr c n = false := by
    unfold pyHasattr
    rw [hn, hbeq]
    rfl
  constructor
  · unfold from_flags
    exact from_flags_step_error hha kw hkw 0
  · unfold pySetattr
    rw [hn, if_neg (by rw [hbeq]; exact Bool.false_ne_true)]

/-- Counterexample to C7 as stated: the name `"value"` is not in the
descriptor table of `Language`, yet `from_flags(value=True)` raises
nothing — it succeeds and stores the raw bool (value `1`). -/
theorem spec_C7_counterexample :
    from_flags cse.Language [("value", true)] = Except.ok 1
    ∧ "value" ∉ cse.Language.decls.map (fun d => d.name) := by
  constructor
  · decide
  · decide

/-- Witness for C7 at `Language` with the unknown name `"klingon"`. -/
theorem spec_C7_witness :
    from_flags cse.Language ([] ++ ("klingon", true) :: []) = Except.error "klingon"
    ∧ pySetattr cse.Language 0 "klingon" true = Except.error "klingon" :=
  spec_C7 cse.Language "klingon" true [] [] 0
    (by intro p hp; cases hp) (by decide) (by decide)

theorem flagMask_lt {c : FlagClass} {d : FlagDescriptor}
    (hbits : c.decls.map (fun e => e.bit) = List.range c.decls.length)
    (hd : d ∈ c.decls) : flagMask d < 2 ^ nflags c := by
  rw [flagMask_eq, nflags_eq_length]
  have : d.bit ∈ c.decls.map (fun e => e.bit) := List.mem_map_of_mem _ hd
  rw [hbits] at this
  exact Nat.pow_lt_pow_right (by omega) (List.mem_range.mp this)

theorem pySetattr_bound {c : FlagClass}
    (hbits : c.decls.map (fun e => e.bit) = List.range c.decls.length)
    (hne : c.decls ≠ []) {v w : Nat} {n : String} {b : Bool}
    (hv : v < 2 ^ nflags c) (h : pySetattr c v n b = .ok w) :
    w < 2 ^ nflags c := by
  unfold pySetattr at h
  cases hf : findDescr c n with
  | some d =>
    rw [hf] at h
    have hw : w = _set_flag v (flagMask d) b := (Except.ok.inj h).symm
    subst hw
    have hmask : flagMask d < 2 ^ nflags c := flagMask_lt hbits (findDescr_mem hf).1
    unfold _set_flag
    cases b with
    | true => simpa using Nat.or_lt_two_pow hv hmask
    | false => simpa using Nat.xor_lt_two_pow hv (Nat.and_lt_two_pow v hmask)
  | none =>
    rw [hf] at h
    by_cases hval : (n == "value") = true
    · rw [if_pos hval] at h
      have hw : w = if b then 1 else 0 := (Except.ok.inj h).symm
      have hN : 1 ≤ nflags c := by
        rw [nflags_eq_length]
        exact List.length_pos.mpr hne
      have h2 : 2 ≤ 2 ^ nflags c :=
        calc 2 = 2 ^ 1 := rfl
          _ ≤ 2 ^ nflags c := Nat.pow_le_pow_right (by omega) hN
      cases b <;> simp [hw]
      omega
    · rw [if_neg hval] at h
      exact Except.noConfusion h

theorem from_flags_fold_bound {c : FlagClass}
    (hbits : c.decls.map (fun e => e.bit) = List.range c.decls.length)
    (hne : c.decls ≠ []) :
    ∀ (kw : List (String × Bool)) (w v : Nat), w < 2 ^ nflags c →
    kw.foldlM
      (fun u p => if pyHasattr c p.1 then pySetattr c u p.1 p.2
                  else Except.error p.1) w = .ok v →
    v < 2 ^ nflags c := by
  intro kw
  induction kw with
  | nil =>
    intro w v hw h
    have : w = v := Except.ok.inj h
    exact this ▸ hw
  | cons q kws ih =>
    intro w v hw h
    rw [List.foldlM_cons] at h
    by_cases hq : pyHasattr c q.1 = true
    · rw [if_pos hq] at h
      cases hstep : pySetattr c w q.1 q.2 with
      | error e =>
        rw [hstep] at h
        exact Except.noConfusion h
      | ok w' =>
        rw [hstep] at h
        exact ih w' v (pySetattr_bound hbits hne hw hstep) h
    · rw [if_neg hq] at h
      exact Except.noConfusion h

/-- C8 (invariant): every instance value reachable through the public
constructors (`none`, `all`, `from_flags`) and any sequence of attribute
assignments stays below `2^N`, i.e. its bit-length never exceeds the
descriptor count. -/
theorem spec_C8 (c : FlagClass) (v : Nat) (hWF : WF c)
    (h : Reachable c v) : v < 2 ^ nflags c := by
  obtain ⟨hnd, hdnd, hbits, hdocs, hval, hne⟩ := hWF
  induction h with
  | fromNone => exact Nat.two_pow_pos _
  | fromAll =>
    have := Nat.two_pow_pos (nflags c)
    unfold FlagClass.all
    rw [show c.nflags = nflags c from rfl]
    omega
  | fromFlags kwargs w hok =>
    exact from_flags_fold_bound hbits hne kwargs 0 w (Nat.two_pow_pos _) hok
  | fromSet w n b w' _ hstep ih =>
    exact pySetattr_bound hbits hne ih hstep

/-- Witness for C8: the empty `Language` instance. -/
theorem spec_C8_witness : (0 : Nat) < 2 ^ nflags cse.Language :=
  spec_C8 cse.Language 0 (by decide) Reachable.fromNone

/-- Counterexample to C4 as stated: iteration is NOT in descriptor
declaration (bit-position) order.  `inspect.getmembers` sorts member names,
so `Language` iterates `chinese_simplified` (bit 33) fourth, where
declaration order has `czech` (bit 3); consequently with `german` (bit 5,
declared before `english`) and `english` (bit 7) set, the encoder emits
`lang_en|lang_de`, not declaration-ordered `lang_de|lang_en`. -/
theorem spec_C4_counterexample :
    (iterate cse.Language 0).map Prod.fst ≠ cse.Language.decls.map (fun d => d.name)
    ∧ to_google_flags cse.Language ((1 <<< 5) ||| (1 <<< 7)) = some "lang_en|lang_de"
    ∧ to_google_flags cse.Language ((1 <<< 5) ||| (1 <<< 7)) ≠ some "lang_de|lang_en" := by
  refine ⟨by decide, by decide, by decide⟩

/-- C4 (corrected): iteration produces one `(name, bool)` pair per
registered descriptor, in ascending code-point order of the flag names
(the order `inspect.getmembers` produces), and the wire tokens of any
encoding appear in that order; the claim's concrete example is unaffected,
since `english` sorts before `french`. -/
theorem spec_C4 (c : FlagClass) (v : Nat) :
    (iterate c v).map Prod.fst = flag_values c
    ∧ List.Perm (flag_values c) (c.decls.map (fun d => d.name))
    ∧ (flag_values c).Sorted pyLeP
    ∧ to_google_flags cse.Language ((1 <<< 7) ||| (1 <<< 11)) = some "lang_en|lang_fr" := by
  refine ⟨?_, flag_values_perm c, ?_, by decide⟩
  · unfold iterate
    rw [List.map_map]
    exact List.map_id _
  · unfold flag_values
    exact List.sorted_insertionSort pyLeP _

theorem countP_bool_add {α : Type} (p : α → Bool) (l : List α) :
    l.countP (fun a => !p a) + l.countP p = l.length := by
  induction l with
  | nil => rfl
  | cons x xs ih =>
    rw [List.countP_cons, List.countP_cons, List.length_cons]
    cases hx : p x <;> simp [hx] <;> omega

theorem complValue_lt {c : FlagClass} {v : Nat} (hv : v < 2 ^ nflags c) :
    complValue c v < 2 ^ nflags c := by
  unfold complValue FlagClass.all
  apply Nat.xor_lt_two_pow _ hv
  have := Nat.two_pow_pos (nflags c)
  show 2 ^ nflags c - 1 < 2 ^ nflags c
  omega

theorem testBit_complValue {c : FlagClass} {v : Nat} (j : Nat)
    (hj : j < nflags c) :
    (complValue c v).testBit j = !v.testBit j := by
  unfold complValue FlagClass.all
  rw [Nat.testBit_xor, Nat.testBit_two_pow_sub_one]
  simp [hj]

theorem countOnes_complValue {c : FlagClass} {v : Nat}
    (hv : v < 2 ^ nflags c) :
    countOnes (complValue c v) = nflags c - countOnes v := by
  have hcl := complValue_lt (c := c) (v := v) hv
  rw [countOnes_eq_countP_range (nflags c) _ hcl,
    countOnes_eq_countP_range (nflags c) v hv]
  have hcongr : (List.range (nflags c)).countP (fun j => (complValue c v).testBit j)
      = (List.range (nflags c)).countP (fun j => !v.testBit j) := by
    apply List.countP_congr
    intro j hj
    rw [testBit_complValue j (List.mem_range.mp hj)]
  rw [hcongr]
  have hadd := countP_bool_add (fun j => v.testBit j) (List.range (nflags c))
  have hle : (List.range (nflags c)).countP (fun j => v.testBit j) ≤ nflags c := by
    have := List.countP_le_length (l := List.range (nflags c)) (p := fun j => v.testBit j)
    simpa using this
  rw [List.length_range] at hadd
  omega

theorem iterate_complValue {c : FlagClass} {v : Nat}
    (hbits : c.decls.map (fun d => d.bit) = List.range c.decls.length) :
    iterate c (complValue c v) = (iterate c v).map (fun p => (p.1, !p.2)) := by
  unfold iterate
  rw [List.map_map]
  apply List.map_congr_left
  intro n hn
  have hn' : n ∈ c.decls.map (fun d => d.name) :=
    (flag_values_perm c).mem_iff.mp hn
  have hfind : (findDescr c n).isSome := by
    unfold findDescr
    rw [List.find?_isSome]
    rcases List.mem_map.mp hn' with ⟨d, hd, rfl⟩
    exact ⟨d, hd, by simp⟩
  rcases Option.isSome_iff_exists.mp hfind with ⟨d, hd⟩
  have hdd := findDescr_mem hd
  have hbit : d.bit < nflags c := by
    have : d.bit ∈ c.decls.map (fun e => e.bit) := List.mem_map_of_mem _ hdd.1
    rw [hbits] at this
    rw [nflags_eq_length]
    exact List.mem_range.mp this
  show (n, (getFlag c (complValue c v) n).getD false)
      = (n, !(getFlag c v n).getD false)
  rw [getFlag, getFlag, hd]
  simp only [Option.map_some', Option.getD_some]
  rw [has_flag_eq_testBit, has_flag_eq_testBit, testBit_complValue d.bit hbit]

theorem unsetDocs_complValue {c : FlagClass} {v : Nat}
    (hbits : c.decls.map (fun d => d.bit) = List.range c.decls.length) :
    unsetDocs c (complValue c v) = setDocs c v := by
  unfold unsetDocs setDocs
  rw [iterate_complValue (v := v) hbits, List.filter_map]
  have hcongr : List.filter ((fun p : String × Bool => !p.2) ∘ fun p => (p.1, !p.2))
        (iterate c v)
      = List.filter (fun p : String × Bool => p.2) (iterate c v) := by
    apply List.filter_congr
    intro p _
    simp
  rw [hcongr, List.map_map]
  rfl

/-- C3 (corrected): for `0 < k` set flags with `2k ≤ N` the encoding is the
positive list of exactly the `k` wire tokens of the set flags joined by
`|` with no wrapper; the complement instance (`N − k` flags set) yields the
negated list of exactly those same `k` tokens — provided `2k < N` strictly
(at `2k = N` the complement also has `N/2` flags set and therefore takes
the positive branch; see the counterexample).  Concretely for `Language`,
all flags set except `english` encodes as `-(lang_en)`. -/
theorem spec_C3 (c : FlagClass) (v k : Nat) (hWF : WF c)
    (hv : v < 2 ^ nflags c) (hk : k = setCount c v)
    (h0 : 0 < k) (hle : 2 * k ≤ nflags c) :
    (to_google_flags c v = some (positiveList c v)
      ∧ (setDocs c v).length = k)
    ∧ (2 * k < nflags c →
        to_google_flags c (complValue c v) = some (negatedList c (complValue c v))
        ∧ unsetDocs c (complValue c v) = setDocs c v
        ∧ (unsetDocs c (complValue c v)).length = k)
    ∧ to_google_flags cse.Language (complValue cse.Language (1 <<< 7))
        = some "-(lang_en)" := by
  obtain ⟨hnd, hdnd, hbits, hdocs, hval, hcne⟩ := hWF
  have hkc : k = countOnes v := by
    rw [hk]; exact setCount_eq_countOnes hnd hbits hv
  have h0' : v ≠ 0 := by
    intro hv0
    rw [hkc, hv0, countOnes_zero] at h0
    omega
  have hNpos : 0 < nflags c := by omega
  have hfull : v ≠ 2 ^ nflags c - 1 := by
    intro hvf
    rw [hkc, hvf, countOnes_two_pow_sub_one] at hle h0
    omega
  have hlen : (setDocs c v).length = k := by
    unfold setDocs
    rw [List.length_map, ← List.countP_eq_length_filter, hk]
    rfl
  refine ⟨⟨tgf_eq_positive h0' hfull (by omega), hlen⟩, ?_, ?_⟩
  · intro hlt
    have hw := complValue_lt (c := c) (v := v) hv
    have hcw : countOnes (complValue c v) = nflags c - k := by
      rw [countOnes_complValue hv, hkc]
    have hw0 : complValue c v ≠ 0 := by
      intro h
      rw [h, countOnes_zero] at hcw
      omega
    have hwfull : complValue c v ≠ 2 ^ nflags c - 1 := by
      intro h
      rw [h, countOnes_two_pow_sub_one] at hcw
      omega
    have hgt : 2 * countOnes (complValue c v) > nflags c := by
      rw [hcw]; omega
    refine ⟨tgf_eq_negated hw0 hwfull hgt, unsetDocs_complValue hbits, ?_⟩
    rw [unsetDocs_complValue hbits, hlen]
  · decide

/-- Witness for C3 at `Language` with value `1` (only `arabic` set,
`k = 1`, `2k < 35`). -/
theorem spec_C3_witness :
    (to_google_flags cse.Language 1 = some (positiveList cse.Language 1)
      ∧ (setDocs cse.Language 1).length = 1)
    ∧ (2 * 1 < nflags cse.Language →
        to_google_flags cse.Language (complValue cse.Language 1)
          = some (negatedList cse.Language (complValue cse.Language 1))
        ∧ unsetDocs cse.Language (complValue cse.Language 1) = setDocs cse.Language 1
        ∧ (unsetDocs cse.Language (complValue cse.Language 1)).length = 1)
    ∧ to_google_flags cse.Language (complValue cse.Language (1 <<< 7))
        = some "-(lang_en)" :=
  spec_C3 cse.Language 1 1 (by decide) (by decide) (by decide)
    (by decide) (by decide)

set_option maxRecDepth 8000 in
/-- Counterexample to C3 as stated: the claim asserts the negated-list
encoding for the complement whenever `0 < k ≤ N/2`, but at the exact tie
`k = N/2` (possible since `CountryCode` has `N = 242`) the complement
itself has `N − k = N/2` flags set, so the strict `>` guard routes it to
the positive branch.  With the 121 lowest flags set, the complement
(121 highest flags set) does not encode as its negated list. -/
theorem spec_C3_counterexample :
    0 < countOnes (2 ^ 121 - 1)
    ∧ 2 * countOnes (2 ^ 121 - 1) ≤ nflags cse.CountryCode
    ∧ countOnes (complValue cse.CountryCode (2 ^ 121 - 1))
        = nflags cse.CountryCode - countOnes (2 ^ 121 - 1)
    ∧ to_google_flags cse.CountryCode (complValue cse.CountryCode (2 ^ 121 - 1)) ≠
        some (negatedList cse.CountryCode (complValue cse.CountryCode (2 ^ 121 - 1))) := by
  have hN : nflags cse.CountryCode = 242 := by
    rw [nflags_eq_length]; decide
  have hco : countOnes ((2 : Nat) ^ 121 - 1) = 121 := by decide
  have hcompl : complValue cse.CountryCode (2 ^ 121 - 1) = 2 ^ 242 - 2 ^ 121 := by
    unfold complValue FlagClass.all
    rw [show cse.CountryCode.nflags = nflags cse.CountryCode from rfl, hN]
    decide
  have hcnt2 : countOnes ((2 : Nat) ^ 242 - 2 ^ 121) = 121 := by decide
  have h0' : (2 : Nat) ^ 242 - 2 ^ 121 ≠ 0 := by decide
  have hfull : (2 : Nat) ^ 242 - 2 ^ 121 ≠ 2 ^ nflags cse.CountryCode - 1 := by
    rw [hN]; decide
  have hngt : ¬ 2 * countOnes ((2 : Nat) ^ 242 - 2 ^ 121) > nflags cse.CountryCode := by
    rw [hcnt2, hN]; omega
  have hz1 : "zimbabwe" ∈ cse.CountryCode.decls.map (fun d => d.name) := by decide
  have hz2 : "zimbabwe" ∈ flag_values cse.CountryCode :=
    (flag_values_perm cse.CountryCode).mem_iff.mpr hz1
  have hget : (getFlag cse.CountryCode (2 ^ 242 - 2 ^ 121) "zimbabwe").getD false
      = true := by decide
  have hpair : ("zimbabwe", true) ∈ iterate cse.CountryCode (2 ^ 242 - 2 ^ 121) := by
    unfold iterate
    refine List.mem_map.mpr ⟨"zimbabwe", hz2, ?_⟩
    rw [hget]
  have hdocmem : docOf cse.CountryCode "zimbabwe" = "countryZW" := by decide
  have hsdne : setDocs cse.CountryCode (2 ^ 242 - 2 ^ 121) ≠ [] := by
    apply List.ne_nil_of_mem (a := "countryZW")
    unfold setDocs
    exact List.mem_map.mpr
      ⟨("zimbabwe", true), List.mem_filter.mpr ⟨hpair, by decide⟩, hdocmem⟩
  have hdocsok : ∀ d ∈ cse.CountryCode.decls,
      d.doc ≠ "" ∧ d.doc.data.head? ≠ some '-' := by decide
  refine ⟨by rw [hco]; omega, by rw [hco, hN], ?_, ?_⟩
  · rw [hcompl, hcnt2, hN, hco]
  · rw [hcompl, tgf_eq_positive h0' hfull hngt]
    intro h
    exact positiveList_head_ne hdocsok hsdne (Option.some_injective _ h)

theorem from_flags_true_fold {c : FlagClass} :
    ∀ (S : List String), (∀ n ∈ S, (findDescr c n).isSome) → ∀ (w : Nat),
    ∃ v, (S.map (fun n => (n, true))).foldlM
        (fun u p => if pyHasattr c p.1 then pySetattr c u p.1 p.2
                    else Except.error p.1) w = .ok v
      ∧ ∀ j, v.testBit j =
          (w.testBit j ||
            S.any (fun n => ((findDescr c n).map
              (fun d => decide (d.bit = j))).getD false)) := by
  intro S
  induction S with
  | nil =>
    intro _ w
    exact ⟨w, rfl, fun j => by simp⟩
  | cons n S' ih =>
    intro hS w
    have hn : (findDescr c n).isSome := hS n (List.mem_cons_self n S')
    rcases Option.isSome_iff_exists.mp hn with ⟨d, hd⟩
    have hha : pyHasattr c n = true := by
      unfold pyHasattr
      rw [hd]
      rfl
    rcases ih (fun m hm => hS m (List.mem_cons_of_mem n hm))
      (_set_flag w (flagMask d) true) with ⟨v, hfold, hbit⟩
    refine ⟨v, ?_, ?_⟩
    · rw [List.map_cons, List.foldlM_cons, if_pos hha]
      show (pySetattr c w n true) >>= _ = _
      rw [pySetattr, hd]
      exact hfold
    · intro j
      rw [hbit j, set_flag_true_testBit]
      rw [List.any_cons, hd]
      simp only [Option.map_some', Option.getD_some]
      cases w.testBit j <;> cases hdj : decide (d.bit = j) <;> simp

/-- C6: constructing via `from_flags` with every name of a subset `S`
mapped to `True` yields an instance whose `get(name)` is `True` exactly
when `name ∈ S`, for every registered name. -/
theorem spec_C6 (c : FlagClass) (S : List String) (hWF : WF c)
    (hS : ∀ n ∈ S, n ∈ c.decls.map (fun d => d.name)) :
    ∃ v, from_flags c (S.map (fun n => (n, true))) = .ok v
      ∧ ∀ n ∈ c.decls.map (fun d => d.name),
          getFlag c v n = some (decide (n ∈ S)) := by
  obtain ⟨hnd, hdnd, hbits, hdocs, hval, hcne⟩ := hWF
  have hSsome : ∀ n ∈ S, (findDescr c n).isSome := by
    intro n hn
    rcases List.mem_map.mp (hS n hn) with ⟨d, hd, rfl⟩
    rw [findDescr_eq_some_of_mem hnd hd]
    rfl
  rcases from_flags_true_fold S hSsome 0 with ⟨v, hfold, hbit⟩
  refine ⟨v, hfold, ?_⟩
  intro n hn
  rcases List.mem_map.mp hn with ⟨d, hd, rfl⟩
  have hfind : findDescr c d.name = some d := findDescr_eq_some_of_mem hnd hd
  rw [getFlag, hfind]
  simp only [Option.map_some']
  congr 1
  rw [has_flag_eq_testBit, hbit d.bit]
  rw [Nat.zero_testBit, Bool.false_or]
  by_cases hmem : d.name ∈ S
  · have : S.any (fun n => ((findDescr c n).map
        (fun e => decide (e.bit = d.bit))).getD false) = true := by
      rw [List.any_eq_true]
      exact ⟨d.name, hmem, by rw [hfind]; simp⟩
    rw [this]
    simp [hmem]
  · have : S.any (fun n => ((findDescr c n).map
        (fun e => decide (e.bit = d.bit))).getD false) = false := by
      rw [List.any_eq_false]
      intro m hm
      rcases List.mem_map.mp (hS m hm) with ⟨e, he, rfl⟩
      have hfe : findDescr c e.name = some e := findDescr_eq_some_of_mem hnd he
      rw [hfe]
      simp only [Option.map_some', Option.getD_some, decide_eq_true_eq]
      intro hbe
      have : e = d := map_nodup_inj (hbits ▸ List.nodup_range _) e he d hd hbe
      exact hmem (this ▸ hm)
    rw [this]
    simp [hmem]

/-- Witness for C6 at `Language` with `S = [english, french]`. -/
theorem spec_C6_witness :
    ∃ v, from_flags cse.Language
        (["english", "french"].map (fun n => (n, true))) = .ok v
      ∧ ∀ n ∈ cse.Language.decls.map (fun d => d.name),
          getFlag cse.Language v n = some (decide (n ∈ ["english", "french"])) :=
  spec_C6 cse.Language ["english", "french"] (by decide) (by decide)

theorem string_mk_data (s : String) : String.mk s.data = s := rfl

theorem pyJoin_data : ∀ (ts : List String),
    (pyJoin "|" ts).data = charJoin '|' (ts.map String.data)
  | [] => rfl
  | [t] => rfl
  | t :: u :: rest => by
    show ((t ++ "|" ++ pyJoin "|" (u :: rest)).data) = _
    rw [String.data_append, String.data_append, pyJoin_data (u :: rest)]
    show t.data ++ ['|'] ++ _ = t.data ++ '|' :: _
    rw [List.append_assoc]
    rfl

theorem splitOnChar_no_sep {sep : Char} : ∀ {xs : List Char}, sep ∉ xs →
    splitOnChar sep xs = [xs]
  | [], _ => rfl
  | c :: cs, h => by
    have hc : ¬ c = sep := fun he => h (he ▸ List.mem_cons_self c cs)
    have hcs : sep ∉ cs := fun hm => h (List.mem_cons_of_mem c hm)
    rw [splitOnChar, if_neg hc, splitOnChar_no_sep hcs]

theorem splitOnChar_prefix {sep : Char} : ∀ {xs : List Char} (r : List Char),
    sep ∉ xs →
    splitOnChar sep (xs ++ sep :: r) = xs :: splitOnChar sep r
  | [], r, _ => by
    rw [List.nil_append, splitOnChar, if_pos rfl]
  | c :: cs, r, h => by
    have hc : ¬ c = sep := fun he => h (he ▸ List.mem_cons_self c cs)
    have hcs : sep ∉ cs := fun hm => h (List.mem_cons_of_mem c hm)
    rw [List.cons_append, splitOnChar, if_neg hc,
      splitOnChar_prefix r hcs]

theorem splitOnChar_charJoin {sep : Char} : ∀ {xss : List (List Char)},
    xss ≠ [] → (∀ xs ∈ xss, sep ∉ xs) →
    splitOnChar sep (charJoin sep xss) = xss
  | [], h, _ => absurd rfl h
  | [xs], _, hall => by
    rw [charJoin, splitOnChar_no_sep (hall xs (List.mem_cons_self xs []))]
  | xs :: ys :: rest, _, hall => by
    rw [charJoin, splitOnChar_prefix _ (hall xs (List.mem_cons_self xs (ys :: rest))),
      splitOnChar_charJoin (List.cons_ne_nil ys rest)
        (fun zs hzs => hall zs (List.mem_cons_of_mem xs hzs))]

theorem wireTokens_pyJoin {ts : List String} (hne : ts ≠ [])
    (hnosep : ∀ t ∈ ts, '|' ∉ t.data) :
    wireTokens (pyJoin "|" ts) = ts := by
  unfold wireTokens
  rw [pyJoin_data, splitOnChar_charJoin
    (by intro h; exact hne (List.map_eq_nil_iff.mp h))
    (by
      intro xs hxs
      rcases List.mem_map.mp hxs with ⟨t, ht, rfl⟩
      exact hnosep t ht)]
  rw [List.map_map]
  have : (String.mk ∘ String.data) = id := funext fun s => string_mk_data s
  rw [this, List.map_id]

theorem find?_doc_aux {l : List FlagDescriptor} {d : FlagDescriptor}
    (hnd : (l.map (fun e => e.doc)).Nodup) (hd : d ∈ l) :
    l.find? (fun e => e.doc == d.doc) = some d := by
  induction l with
  | nil => cases hd
  | cons a l ih =>
    simp only [List.map_cons, List.nodup_cons] at hnd
    rcases List.mem_cons.mp hd with rfl | hd'
    · simp [List.find?_cons]
    · have hne : (a.doc == d.doc) = false := by
        rw [beq_eq_false_iff_ne]
        intro he
        exact hnd.1 (he ▸ List.mem_map_of_mem _ hd')
      rw [List.find?_cons, hne]
      exact ih hnd.2 hd'

theorem find?_doc_eq_some_of_mem {c : FlagClass} {d : FlagDescriptor}
    (hnd : (c.decls.map (fun e => e.doc)).Nodup) (hd : d ∈ c.decls) :
    tokenDescr c d.doc = some d :=
  find?_doc_aux hnd hd

theorem tokensMask_char {c : FlagClass} :
    ∀ (ts : List String), (∀ t ∈ ts, (tokenDescr c t).isSome) →
    ∃ m, tokensMask c ts = some m
      ∧ ∀ j, m.testBit j = ts.any (fun t => ((tokenDescr c t).map
          (fun d => decide (d.bit = j))).getD false) := by
  intro ts
  induction ts with
  | nil =>
    intro _
    exact ⟨0, rfl, fun j => by simp⟩
  | cons t ts' ih =>
    intro hts
    have ht : (tokenDescr c t).isSome := hts t (List.mem_cons_self t ts')
    rcases Option.isSome_iff_exists.mp ht with ⟨d, hd⟩
    rcases ih (fun u hu => hts u (List.mem_cons_of_mem t hu)) with ⟨m, hmask, hbit⟩
    refine ⟨flagMask d ||| m, ?_, ?_⟩
    · rw [tokensMask, hd, hmask]
    · intro j
      rw [flagMask_eq, Nat.testBit_or, Nat.testBit_two_pow, hbit j,
        List.any_cons, hd]
      simp only [Option.map_some', Option.getD_some]

theorem unsetDocs_any_bit {c : FlagClass} {v : Nat}
    (hnd : (c.decls.map (fun e => e.name)).Nodup)
    (hdnd : (c.decls.map (fun e => e.doc)).Nodup)
    (hbits : c.decls.map (fun d => d.bit) = List.range c.decls.length)
    (j : Nat) :
    (unsetDocs c v).any (fun t => ((tokenDescr c t).map
        (fun d => decide (d.bit = j))).getD false)
      = (decide (j < nflags c) && !v.testBit j) := by
  by_cases hj : j < nflags c
  · by_cases hbit : v.testBit j = true
    · rw [decide_eq_true hj, Bool.true_and, hbit, Bool.not_true]
      rw [List.any_eq_false]
      intro t ht
      rcases mem_unsetDocs ht with ⟨d, hd, hdoc, hfalse⟩
      rw [← hdoc, find?_doc_eq_some_of_mem hdnd hd]
      simp only [Option.map_some', Option.getD_some, decide_eq_true_eq]
      intro hbe
      rw [hbe] at hfalse
      rw [hfalse] at hbit
      exact Bool.noConfusion hbit
    · have hbit' : v.testBit j = false := Bool.eq_false_iff.mpr hbit
      rw [decide_eq_true hj, Bool.true_and, hbit', Bool.not_false]
      rw [List.any_eq_true]
      have hjr : j ∈ c.decls.map (fun d => d.bit) := by
        rw [hbits]
        rw [nflags_eq_length] at hj
        exact List.mem_range.mpr hj
      rcases List.mem_map.mp hjr with ⟨d, hd, rfl⟩
      refine ⟨d.doc, mem_unsetDocs_of_descr hnd hd hbit', ?_⟩
      rw [find?_doc_eq_some_of_mem hdnd hd]
      simp
  · rw [decide_eq_false hj, Bool.false_and]
    rw [List.any_eq_false]
    intro t ht
    rcases mem_unsetDocs ht with ⟨d, hd, hdoc, _⟩
    rw [← hdoc, find?_doc_eq_some_of_mem hdnd hd]
    simp only [Option.map_some', Option.getD_some, decide_eq_true_eq]
    intro hbe
    apply hj
    rw [← hbe, nflags_eq_length]
    have : d.bit ∈ c.decls.map (fun e => e.bit) := List.mem_map_of_mem _ hd
    rw [hbits] at this
    exact List.mem_range.mp this

theorem setDocs_any_bit {c : FlagClass} {v : Nat}
    (hnd : (c.decls.map (fun e => e.name)).Nodup)
    (hdnd : (c.decls.map (fun e => e.doc)).Nodup)
    (hbits : c.decls.map (fun d => d.bit) = List.range c.decls.length)
    (j : Nat) :
    (setDocs c v).any (fun t => ((tokenDescr c t).map
        (fun d => decide (d.bit = j))).getD false)
      = (decide (j < nflags c) && v.testBit j) := by
  by_cases hj : j < nflags c
  · by_cases hbit : v.testBit j = true
    · rw [decide_eq_true hj, Bool.true_and, hbit]
      rw [List.any_eq_true]
      have hjr : j ∈ c.decls.map (fun d => d.bit) := by
        rw [hbits]
        rw [nflags_eq_length] at hj
        exact List.mem_range.mpr hj
      rcases List.mem_map.mp hjr with ⟨d, hd, rfl⟩
      refine ⟨d.doc, mem_setDocs_of_descr hnd hd hbit, ?_⟩
      rw [find?_doc_eq_some_of_mem hdnd hd]
      simp
    · have hbit' : v.testBit j = false := Bool.eq_false_iff.mpr hbit
      rw [decide_eq_true hj, Bool.true_and, hbit']
      rw [List.any_eq_false]
      intro t ht
      rcases mem_setDocs ht with ⟨d, hd, hdoc, htrue⟩
      rw [← hdoc, find?_doc_eq_some_of_mem hdnd hd]
      simp only [Option.map_some', Option.getD_some, decide_eq_true_eq]
      intro hbe
      rw [hbe] at htrue
      rw [htrue] at hbit'
      exact Bool.noConfusion hbit'
  · rw [decide_eq_false hj, Bool.false_and]
    rw [List.any_eq_false]
    intro t ht
    rcases mem_setDocs ht with ⟨d, hd, hdoc, _⟩
    rw [← hdoc, find?_doc_eq_some_of_mem hdnd hd]
    simp only [Option.map_some', Option.getD_some, decide_eq_true_eq]
    intro hbe
    apply hj
    rw [← hbe, nflags_eq_length]
    have : d.bit ∈ c.decls.map (fun e => e.bit) := List.mem_map_of_mem _ hd
    rw [hbits] at this
    exact List.mem_range.mp this

theorem head_of_take2 {l : List Char} (h : l.take 2 = ['-', '(']) :
    l.head? = some '-' := by
  cases l with
  | nil => exact absurd h (by simp)
  | cons a as =>
    have : a = '-' := by
      have := congrArg List.head? h
      simpa using this
    rw [this]
    rfl

/-- C5: round-trip — for every non-empty, non-full flag set, decoding the
produced wire string (splitting on `|`, stripping the `-( … )` wrapper if
present, mapping tokens back through the descriptor table, and rebuilding
the value from the set flags in the positive case or from the complement
of the unset flags in the negated case) reconstructs the exact original
instance value. -/
theorem spec_C5 (c : FlagClass) (v : Nat) (hWF : WF c)
    (hv : v < 2 ^ nflags c) (h0 : v ≠ 0)
    (hfull : v ≠ 2 ^ nflags c - 1) :
    (to_google_flags c v).bind (wireDecode c) = some v := by
  obtain ⟨hnd, hdnd, hbits, hdocs, hval, hcne⟩ := hWF
  have hhigh : ∀ j, ¬ j < nflags c → v.testBit j = false := by
    intro j hj
    apply Nat.testBit_lt_two_pow
    calc v < 2 ^ nflags c := hv
      _ ≤ 2 ^ j := Nat.pow_le_pow_right (by omega) (by omega)
  by_cases hgt : 2 * countOnes v > nflags c
  · rw [tgf_eq_negated h0 hfull hgt]
    show wireDecode c (negatedList c v) = some v
    have hU := unsetDocs_ne_nil hnd hbits hv hfull
    have hUnosep : ∀ t ∈ unsetDocs c v, '|' ∉ t.data := by
      intro t ht
      rcases mem_unsetDocs ht with ⟨d, hd, hdoc, _⟩
      exact hdoc ▸ (hdocs d hd).2.2
    have hUsome : ∀ t ∈ unsetDocs c v, (tokenDescr c t).isSome := by
      intro t ht
      rcases mem_unsetDocs ht with ⟨d, hd, hdoc, _⟩
      rw [← hdoc, find?_doc_eq_some_of_mem hdnd hd]
      rfl
    have hdata : (negatedList c v).data
        = '-' :: '(' :: ((pyJoin "|" (unsetDocs c v)).data ++ [')']) := by
      unfold negatedList
      rw [String.data_append, String.data_append]
      rfl
    unfold wireDecode
    rw [hdata]
    rw [if_pos ⟨rfl, by
      show (('-' :: '(' :: (pyJoin "|" (unsetDocs c v)).data) ++ [')']).getLast?
        = some ')'
      exact List.getLast?_concat _⟩]
    have hstrip : (('-' :: '(' ::
          ((pyJoin "|" (unsetDocs c v)).data ++ [')'])).drop 2).dropLast
        = (pyJoin "|" (unsetDocs c v)).data := by
      show ((pyJoin "|" (unsetDocs c v)).data ++ [')']).dropLast = _
      exact List.dropLast_concat
    rw [hstrip, string_mk_data, wireTokens_pyJoin hU hUnosep]
    rcases tokensMask_char (unsetDocs c v) hUsome with ⟨m, hm, hmbit⟩
    rw [hm]
    show some ((2 ^ nflags c - 1) ^^^ m) = some v
    congr 1
    apply Nat.eq_of_testBit_eq
    intro j
    rw [Nat.testBit_xor, Nat.testBit_two_pow_sub_one, hmbit j,
      unsetDocs_any_bit hnd hdnd hbits j]
    by_cases hj : j < nflags c
    · rw [decide_eq_true hj, Bool.true_and]
      cases v.testBit j <;> rfl
    · rw [decide_eq_false hj, Bool.false_and, hhigh j hj]
      rfl
  · rw [tgf_eq_positive h0 hfull hgt]
    show wireDecode c (positiveList c v) = some v
    have hS := setDocs_ne_nil hnd hbits hv h0
    have hSnosep : ∀ t ∈ setDocs c v, '|' ∉ t.data := by
      intro t ht
      rcases mem_setDocs ht with ⟨d, hd, hdoc, _⟩
      exact hdoc ▸ (hdocs d hd).2.2
    have hSsome : ∀ t ∈ setDocs c v, (tokenDescr c t).isSome := by
      intro t ht
      rcases mem_setDocs ht with ⟨d, hd, hdoc, _⟩
      rw [← hdoc, find?_doc_eq_some_of_mem hdnd hd]
      rfl
    have hhead : (positiveList c v).data.head? ≠ some '-' := by
      cases hsd : setDocs c v with
      | nil => exact absurd hsd hS
      | cons t ts =>
        have ht : t ∈ setDocs c v := hsd ▸ List.mem_cons_self t ts
        rcases mem_setDocs ht with ⟨d, hd, hdoc, _⟩
        have hprop := hdocs d hd
        have htne : t.data ≠ [] := by
          intro hnil
          exact hprop.1 (hdoc ▸ String.ext hnil)
        rw [positiveList, hsd, pyJoin_data_cons _ _ _ htne, ← hdoc]
        exact hprop.2.1
    unfold wireDecode
    rw [if_neg (by
      intro hc
      exact hhead (head_of_take2 hc.1))]
    have hPL : positiveList c v = pyJoin "|" (setDocs c v) := rfl
    rw [hPL, wireTokens_pyJoin hS hSnosep]
    rcases tokensMask_char (setDocs c v) hSsome with ⟨m, hm, hmbit⟩
    rw [hm]
    congr 1
    apply Nat.eq_of_testBit_eq
    intro j
    rw [hmbit j, setDocs_any_bit hnd hdnd hbits j]
    by_cases hj : j < nflags c
    · rw [decide_eq_true hj, Bool.true_and]
    · rw [decide_eq_false hj, Bool.false_and, hhigh j hj]

/-- Witness for C5 at `Language` with value `1`. -/
theorem spec_C5_witness :
    (to_google_flags cse.Language 1).bind (wireDecode cse.Language) = some 1 :=
  spec_C5 cse.Language 1 (by decide) (by decide) (by decide) (by decide)
